import Mathlib

/-!
Verification of the import-reconciliation core of the agent-transfer
repository.  Python sources are embedded shallowly: pure functions become
Lean functions, machine arithmetic is `Nat` with explicit masking, strings
are Lean `String`, filesystem state is passed explicitly, and exceptions
are modelled with `Option` / `Except`.  The line-diff machinery used by
`generate_diff_summary` and `get_diff_blocks` (Python difflib:
`SequenceMatcher` with `isjunk=None`, `get_opcodes`, `get_grouped_opcodes`,
`unified_diff`) is embedded in full, since the claims about diff summaries
and block merges depend on its exact behaviour.
-/

namespace AgentTransfer

/-! ### Python string primitives -/

/-- Python str.startswith: prefix test on the character list. -/
def pyStartsWith (s pre : String) : Bool :=
  pre.data.isPrefixOf s.data

/-- Line-break characters recognised by Python str.splitlines. -/
def isLineBreakChar (c : Char) : Bool :=
  c = '\n' || c = '\r' || c = '\x0b' || c = '\x0c' ||
  c = '\x1c' || c = '\x1d' || c = '\x1e' || c = '\x85' ||
  c = '\u2028' || c = '\u2029'

/-- Characters stripped by Python str.strip and matched by the regex
class for whitespace (space, tab, newline, carriage return, vertical tab,
form feed; the rarer unicode spaces do not occur in the sources). -/
def pyIsSpace (c : Char) : Bool :=
  c = ' ' || c = '\t' || c = '\n' || c = '\r' || c = '\x0b' || c = '\x0c'

/-- Worker for `pySplitlines`; `acc` holds the current line reversed. -/
def splitlinesAux (keepends : Bool) : List Char → List Char → List (List Char)
  | [], acc => if acc.isEmpty then [] else [acc.reverse]
  | '\r' :: '\n' :: rest, acc =>
      (acc.reverse ++ if keepends then ['\r', '\n'] else []) :: splitlinesAux keepends rest []
  | c :: rest, acc =>
      if isLineBreakChar c then
        (acc.reverse ++ if keepends then [c] else []) :: splitlinesAux keepends rest []
      else
        splitlinesAux keepends rest (c :: acc)

/-- Python str.splitlines(keepends). -/
def pySplitlines (keepends : Bool) (s : String) : List String :=
  (splitlinesAux keepends s.data []).map String.mk

/-- Python str.split(sep) for a one-character separator. -/
def splitOnCharAux (sep : Char) : List Char → List Char → List (List Char)
  | [], acc => [acc.reverse]
  | c :: rest, acc =>
      if c = sep then acc.reverse :: splitOnCharAux sep rest []
      else splitOnCharAux sep rest (c :: acc)

/-- Python str.split(sep) for a one-character separator (total, like Python:
an empty string yields one empty field). -/
def pySplitChar (sep : Char) (s : String) : List String :=
  (splitOnCharAux sep s.data []).map String.mk

/-- Python str.strip(): drop leading and trailing whitespace. -/
def pyStrip (s : String) : String :=
  String.mk (((s.data.dropWhile pyIsSpace).reverse.dropWhile pyIsSpace).reverse)

/-- Python slice assignment l[s:e] = x (indices may be negative). -/
def pySliceAssign {α : Type} (l : List α) (s e : Int) (x : List α) : List α :=
  let n : Int := l.length
  let norm : Int → Nat := fun i => if i < 0 then (max 0 (n + i)).toNat else min i.toNat l.length
  let s' := norm s
  let e' := max s' (norm e)
  l.take s' ++ x ++ l.drop e'

/-! ### UTF-8 and SHA-256 (hashlib.sha256 over the UTF-8 encoding) -/

/-- UTF-8 encoding of one character, as byte values. -/
def utf8EncodeChar (c : Char) : List Nat :=
  let n := c.toNat
  if n < 0x80 then [n]
  else if n < 0x800 then
    [0xC0 + n / 0x40, 0x80 + n % 0x40]
  else if n < 0x10000 then
    [0xE0 + n / 0x1000, 0x80 + n / 0x40 % 0x40, 0x80 + n % 0x40]
  else
    [0xF0 + n / 0x40000, 0x80 + n / 0x1000 % 0x40, 0x80 + n / 0x40 % 0x40, 0x80 + n % 0x40]

/-- UTF-8 bytes of a string (Python str.encode of utf-8). -/
def utf8Bytes (s : String) : List Nat :=
  (s.data.map utf8EncodeChar).flatten

/-- Word size modulus for SHA-256 arithmetic. -/
def w32 : Nat := 4294967296

/-- Right rotation of a 32-bit word. -/
def rotr32 (n x : Nat) : Nat :=
  (x / 2 ^ n + x % 2 ^ n * 2 ^ (32 - n)) % w32

/-- SHA-256 round constants. -/
def sha256K : List Nat :=
  [1116352408, 1899447441, 3049323471, 3921009573, 961987163, 1508970993,
   2453635748, 2870763221, 3624381080, 310598401, 607225278, 1426881987,
   1925078388, 2162078206, 2614888103, 3248222580, 3835390401, 4022224774,
   264347078, 604807628, 770255983, 1249150122, 1555081692, 1996064986,
   2554220882, 2821834349, 2952996808, 3210313671, 3336571891, 3584528711,
   113926993, 338241895, 666307205, 773529912, 1294757372, 1396182291,
   1695183700, 1986661051, 2177026350, 2456956037, 2730485921, 2820302411,
   3259730800, 3345764771, 3516065817, 3600352804, 4094571909, 275423344,
   430227734, 506948616, 659060556, 883997877, 958139571, 1322822218,
   1537002063, 1747873779, 1955562222, 2024104815, 2227730452, 2361852424,
   2428436474, 2756734187, 3204031479, 3329325298]

/-- SHA-256 initial hash state. -/
def sha256Init : List Nat :=
  [1779033703, 3144134277, 1013904242, 2773480762, 1359893119, 2600822924, 528734635, 1541459225]

/-- Pad a byte message per SHA-256 (append 0x80, zeros, 64-bit length). -/
def sha256Pad (msg : List Nat) : List Nat :=
  let len := msg.length
  let zeros := (64 - (len + 9) % 64) % 64
  let lenBits := len * 8
  msg ++ [0x80] ++ List.replicate zeros 0 ++
    [lenBits / 2 ^ 56 % 256, lenBits / 2 ^ 48 % 256, lenBits / 2 ^ 40 % 256, lenBits / 2 ^ 32 % 256,
     lenBits / 2 ^ 24 % 256, lenBits / 2 ^ 16 % 256, lenBits / 2 ^ 8 % 256, lenBits % 256]

/-- Split a list into chunks of size n (n > 0 for the callers). -/
def listChunks {α : Type} (n : Nat) : List α → List (List α)
  | [] => []
  | a :: l =>
    if n = 0 then [a :: l]
    else (a :: l).take n :: listChunks n ((a :: l).drop n)
termination_by l => l.length
decreasing_by
  simp only [List.length_drop, List.length_cons]
  omega

/-- Big-endian 32-bit words from bytes. -/
def bytesToWords : List Nat → List Nat
  | b0 :: b1 :: b2 :: b3 :: rest => (b0 * 2 ^ 24 + b1 * 2 ^ 16 + b2 * 2 ^ 8 + b3) :: bytesToWords rest
  | _ => []

/-- Message-schedule extension to 64 words. -/
def sha256Extend (ws : List Nat) : Nat → List Nat
  | 0 => ws
  | t + 1 =>
    let ws := sha256Extend ws t
    if ws.length < 16 then ws else
      let i := ws.length
      let w15 := ws.getD (i - 15) 0
      let w2 := ws.getD (i - 2) 0
      let s0 := (Nat.xor (Nat.xor (rotr32 7 w15) (rotr32 18 w15)) (w15 / 2 ^ 3)) % w32
      let s1 := (Nat.xor (Nat.xor (rotr32 17 w2) (rotr32 19 w2)) (w2 / 2 ^ 10)) % w32
      ws ++ [(ws.getD (i - 16) 0 + s0 + ws.getD (i - 7) 0 + s1) % w32]

/-- One round of the SHA-256 compression function. -/
def sha256Round (st : List Nat) (kw : Nat × Nat) : List Nat :=
  match st with
  | [a, b, c, d, e, f, g, h] =>
    let s1 := (Nat.xor (Nat.xor (rotr32 6 e) (rotr32 11 e)) (rotr32 25 e)) % w32
    let ch := (Nat.xor (Nat.land e f) (Nat.land (w32 - 1 - e) g)) % w32
    let t1 := (h + s1 + ch + kw.1 + kw.2) % w32
    let s0 := (Nat.xor (Nat.xor (rotr32 2 a) (rotr32 13 a)) (rotr32 22 a)) % w32
    let mj := (Nat.xor (Nat.xor (Nat.land a b) (Nat.land a c)) (Nat.land b c)) % w32
    let t2 := (s0 + mj) % w32
    [(t1 + t2) % w32, a, b, c, (d + t1) % w32, e, f, g]
  | st => st

/-- Process one 64-byte chunk. -/
def sha256Chunk (h : List Nat) (chunk : List Nat) : List Nat :=
  let ws := sha256Extend (bytesToWords chunk) 48
  let st := (sha256K.zip ws).foldl sha256Round h
  (h.zip st).map (fun p => (p.1 + p.2) % w32)

/-- SHA-256 digest as a list of eight 32-bit words. -/
def sha256Words (msg : List Nat) : List Nat :=
  (listChunks 64 (sha256Pad msg)).foldl sha256Chunk sha256Init

/-- Lowercase hex character for a value below 16. -/
def hexChar (n : Nat) : Char :=
  Char.ofNat (if n < 10 then 48 + n else 87 + n)

/-- Hex rendering of one 32-bit word (8 hex digits). -/
def wordToHex (x : Nat) : List Char :=
  [hexChar (x / 2 ^ 28 % 16), hexChar (x / 2 ^ 24 % 16), hexChar (x / 2 ^ 20 % 16),
   hexChar (x / 2 ^ 16 % 16), hexChar (x / 2 ^ 12 % 16), hexChar (x / 2 ^ 8 % 16),
   hexChar (x / 2 ^ 4 % 16), hexChar (x % 16)]

/-- hashlib sha256(...).hexdigest() over a byte list. -/
def sha256Hex (msg : List Nat) : String :=
  String.mk ((sha256Words msg).map wordToHex).flatten

/-- import_analyzer._compute_content_hash: sha256 of the UTF-8 encoding,
as a hex string. -/
def computeContentHash (content : String) : String :=
  sha256Hex (utf8Bytes content)

/-! ### difflib.SequenceMatcher (isjunk=None, autojunk=True), on line lists

The repository always constructs SequenceMatcher with isjunk None (directly
in get_diff_blocks and indirectly through unified_diff), so the junk set
bjunk is empty and the two junk-extension loops of find_longest_match are
identities; they are omitted.  The autojunk popular-element filter is kept.
-/

/-- Match triple returned by find_longest_match. -/
structure DMatch where
  i : Nat
  j : Nat
  size : Nat
deriving DecidableEq, Repr

/-- The b2j entry for element x: ascending positions of x in b, emptied for
popular elements (autojunk: b has at least 200 elements and x occurs more
than len(b)/100 + 1 times). -/
def b2jList (b : List String) (x : String) : List Nat :=
  let occ := (List.range b.length).filter (fun j => b.getD j "" = x)
  if b.length ≥ 200 ∧ occ.length > b.length / 100 + 1 then [] else occ

/-- Positions iterated by the inner loop of find_longest_match: the b2j
entry restricted to the window (Python: continue below blo, break at bhi;
the list is ascending, so this is a filter). -/
def flmCols (b : List String) (x : String) (blo bhi : Nat) : List Nat :=
  (b2jList b x).filter (fun j => blo ≤ j ∧ j < bhi)

/-- Chain length recorded in newj2len at column j of row i
(Python: newj2len[j] = j2len.get(j-1, 0) + 1, with j2len.get(-1, 0) = 0). -/
def chainStep (prev : Nat → Nat) (j : Nat) : Nat :=
  (if j = 0 then 0 else prev (j - 1)) + 1

/-- The new j2len mapping after processing row i (zero outside its keys). -/
def flmRowMap (prev : Nat → Nat) (js : List Nat) : Nat → Nat :=
  fun j => if j ∈ js then chainStep prev j else 0

/-- Best-match update while walking the columns of one row. -/
def flmRowBest (i : Nat) (prev : Nat → Nat) (js : List Nat) (bst : DMatch) : DMatch :=
  js.foldl
    (fun acc j =>
      let k := chainStep prev j
      if k > acc.size then ⟨i + 1 - k, j + 1 - k, k⟩ else acc)
    bst

/-- The dynamic-programming loop of find_longest_match over rows
alo..ahi-1, threading (j2len, best). -/
def flmDict (a b : List String) (alo ahi blo bhi : Nat) : DMatch :=
  ((List.range' alo (ahi - alo)).foldl
    (fun (st : (Nat → Nat) × DMatch) i =>
      let js := flmCols b (a.getD i "") blo bhi
      (flmRowMap st.1 js, flmRowBest i st.1 js st.2))
    (fun _ => 0, ⟨alo, blo, 0⟩)).2

/-- First while loop of find_longest_match: extend the match downwards.
The fuel m.i is exact: the loop stops no later than besti = 0. -/
def extendLower (a b : List String) (alo blo : Nat) : Nat → DMatch → DMatch
  | 0, m => m
  | fuel + 1, m =>
    if alo < m.i ∧ blo < m.j ∧ a.getD (m.i - 1) "" = b.getD (m.j - 1) "" then
      extendLower a b alo blo fuel ⟨m.i - 1, m.j - 1, m.size + 1⟩
    else m

/-- Second while loop of find_longest_match: extend the match upwards.
The fuel ahi - (m.i + m.size) is exact. -/
def extendUpper (a b : List String) (ahi bhi : Nat) : Nat → DMatch → DMatch
  | 0, m => m
  | fuel + 1, m =>
    if m.i + m.size < ahi ∧ m.j + m.size < bhi ∧
        a.getD (m.i + m.size) "" = b.getD (m.j + m.size) "" then
      extendUpper a b ahi bhi fuel ⟨m.i, m.j, m.size + 1⟩
    else m

/-- difflib SequenceMatcher.find_longest_match on the window
a[alo:ahi] x b[blo:bhi] (the junk-extension loops are identities since
isjunk is None). -/
def findLongestMatch (a b : List String) (alo ahi blo bhi : Nat) : DMatch :=
  let m := flmDict a b alo ahi blo bhi
  let m := extendLower a b alo blo m.i m
  extendUpper a b ahi bhi (ahi - (m.i + m.size)) m

/-- Recursive collection of matching blocks, in document order.  The
Python version keeps a work queue and sorts the collected list at the end;
since all blocks from the left sub-window precede the found block, which
precedes all blocks from the right sub-window (established by the chain
lemmas below), in-order recursion yields the same sorted list.  The fuel,
one more than the total window size, is always sufficient. -/
def mblocksAux (a b : List String) : Nat → Nat → Nat → Nat → Nat → List DMatch
  | 0, _, _, _, _ => []
  | fuel + 1, alo, ahi, blo, bhi =>
    let m := findLongestMatch a b alo ahi blo bhi
    if m.size = 0 then []
    else
      (if alo < m.i ∧ blo < m.j then mblocksAux a b fuel alo m.i blo m.j else []) ++
      [m] ++
      (if m.i + m.size < ahi ∧ m.j + m.size < bhi then
        mblocksAux a b fuel (m.i + m.size) ahi (m.j + m.size) bhi
      else [])

/-- Final loop of get_matching_blocks: collapse adjacent blocks.  cur plays
the role of (i1, j1, k1), initially (0, 0, 0). -/
def mergeAdjacentAux : DMatch → List DMatch → List DMatch
  | cur, [] => if cur.size ≠ 0 then [cur] else []
  | cur, bl :: rest =>
    if cur.i + cur.size = bl.i ∧ cur.j + cur.size = bl.j then
      mergeAdjacentAux ⟨cur.i, cur.j, cur.size + bl.size⟩ rest
    else
      (if cur.size ≠ 0 then [cur] else []) ++ mergeAdjacentAux bl rest

/-- difflib SequenceMatcher.get_matching_blocks, with the terminating
sentinel (len(a), len(b), 0). -/
def getMatchingBlocks (a b : List String) : List DMatch :=
  mergeAdjacentAux ⟨0, 0, 0⟩
    (mblocksAux a b (a.length + b.length + 1) 0 a.length 0 b.length) ++
  [⟨a.length, b.length, 0⟩]

/-- Opcode tags of SequenceMatcher.get_opcodes. -/
inductive DTag where
  | replace
  | delete
  | insert
  | equal
deriving DecidableEq, Repr

/-- One (tag, i1, i2, j1, j2) opcode. -/
structure Opcode where
  tag : DTag
  i1 : Nat
  i2 : Nat
  j1 : Nat
  j2 : Nat
deriving DecidableEq, Repr

/-- Loop of get_opcodes: walk the matching blocks keeping the current
position (i, j). -/
def opcodesAux : Nat → Nat → List DMatch → List Opcode
  | _, _, [] => []
  | i, j, m :: rest =>
    (if i < m.i ∧ j < m.j then [⟨.replace, i, m.i, j, m.j⟩]
     else if i < m.i then [⟨.delete, i, m.i, j, m.j⟩]
     else if j < m.j then [⟨.insert, i, m.i, j, m.j⟩]
     else []) ++
    (if m.size ≠ 0 then [⟨.equal, m.i, m.i + m.size, m.j, m.j + m.size⟩] else []) ++
    opcodesAux (m.i + m.size) (m.j + m.size) rest

/-- difflib SequenceMatcher.get_opcodes. -/
def getOpcodes (a b : List String) : List Opcode :=
  opcodesAux 0 0 (getMatchingBlocks a b)

/-- Truncation of a leading equal opcode to n lines of context
(codes[0] adjustment in get_grouped_opcodes). -/
def truncHeadOp (n : Nat) (c : Opcode) : Opcode :=
  if c.tag = .equal then ⟨c.tag, max c.i1 (c.i2 - n), c.i2, max c.j1 (c.j2 - n), c.j2⟩ else c

/-- Truncation of a trailing equal opcode to n lines of context
(codes[-1] adjustment in get_grouped_opcodes). -/
def truncTailOp (n : Nat) (c : Opcode) : Opcode :=
  if c.tag = .equal then ⟨c.tag, c.i1, min c.i2 (c.i1 + n), c.j1, min c.j2 (c.j1 + n)⟩ else c

/-- Apply f to the head of a list, if any. -/
def modifyHeadOp (f : Opcode → Opcode) : List Opcode → List Opcode
  | [] => []
  | c :: rest => f c :: rest

/-- Apply f to the last element of a list, if any. -/
def modifyLastOp (f : Opcode → Opcode) : List Opcode → List Opcode
  | [] => []
  | [c] => [f c]
  | c :: c2 :: rest => c :: modifyLastOp f (c2 :: rest)

/-- Test for a group consisting of a single equal opcode (such trailing
groups are dropped by get_grouped_opcodes). -/
def isSingleEqual : List Opcode → Bool
  | [c] => c.tag = .equal
  | _ => false

/-- Grouping loop of get_grouped_opcodes: split at large equal opcodes,
keeping n lines of context on each side. -/
def groupSplitAux (n : Nat) : List Opcode → List Opcode → List (List Opcode)
  | group, [] => if group.isEmpty || isSingleEqual group then [] else [group]
  | group, c :: rest =>
    if c.tag = .equal ∧ c.i2 - c.i1 > n + n then
      (group ++ [⟨.equal, c.i1, min c.i2 (c.i1 + n), c.j1, min c.j2 (c.j1 + n)⟩]) ::
        groupSplitAux n [⟨.equal, max c.i1 (c.i2 - n), c.i2, max c.j1 (c.j2 - n), c.j2⟩] rest
    else groupSplitAux n (group ++ [c]) rest

/-- difflib SequenceMatcher.get_grouped_opcodes(n). -/
def getGroupedOpcodes (a b : List String) (n : Nat) : List (List Opcode) :=
  let codes := getOpcodes a b
  let codes := if codes.isEmpty then [⟨.equal, 0, 1, 0, 1⟩] else codes
  let codes := modifyHeadOp (truncHeadOp n) codes
  let codes := modifyLastOp (truncTailOp n) codes
  groupSplitAux n [] codes

/-- Python list slice l[i:j]. -/
def sliceList {α : Type} (l : List α) (i j : Nat) : List α :=
  (l.drop i).take (j - i)

/-- difflib._format_range_unified. -/
def formatRangeUnified (start stop : Nat) : String :=
  let beginning := start + 1
  let length := stop - start
  if length = 1 then Nat.repr beginning
  else Nat.repr (if length = 0 then beginning - 1 else beginning) ++ "," ++ Nat.repr length

/-- Lines yielded by unified_diff for one opcode. -/
def renderOpcode (a b : List String) (c : Opcode) : List String :=
  match c.tag with
  | .equal => (sliceList a c.i1 c.i2).map (fun l => " " ++ l)
  | .delete => (sliceList a c.i1 c.i2).map (fun l => "-" ++ l)
  | .insert => (sliceList b c.j1 c.j2).map (fun l => "+" ++ l)
  | .replace =>
      (sliceList a c.i1 c.i2).map (fun l => "-" ++ l) ++
      (sliceList b c.j1 c.j2).map (fun l => "+" ++ l)

/-- Hunk header plus body lines for one group. -/
def renderGroup (a b : List String) (g : List Opcode) : List String :=
  let first := g.headD ⟨.equal, 0, 0, 0, 0⟩
  let last := g.getLastD ⟨.equal, 0, 0, 0, 0⟩
  ("@@ -" ++ formatRangeUnified first.i1 last.i2 ++ " +" ++
    formatRangeUnified first.j1 last.j2 ++ " @@") ::
  (g.map (renderOpcode a b)).flatten

/-- difflib.unified_diff as called by generate_diff_summary: empty file
names and dates, lineterm empty, n = 3; the two header lines are yielded
once, before the first group. -/
def unifiedDiff (a b : List String) : List String :=
  let groups := getGroupedOpcodes a b 3
  if groups.isEmpty then []
  else "--- " :: "+++ " :: (groups.map (renderGroup a b)).flatten

/-- import_analyzer.generate_diff_summary. -/
def generateDiffSummary (existing incoming : String) : String :=
  let diff := unifiedDiff (pySplitlines true existing) (pySplitlines true incoming)
  let added := (diff.filter (fun l => pyStartsWith l "+" ∧ ¬ pyStartsWith l "+++")).length
  let removed := (diff.filter (fun l => pyStartsWith l "-" ∧ ¬ pyStartsWith l "---")).length
  let changed := min added removed
  let pureAdded := added - changed
  let pureRemoved := removed - changed
  let parts :=
    (if pureAdded > 0 then ["+" ++ Nat.repr pureAdded] else []) ++
    (if pureRemoved > 0 then ["-" ++ Nat.repr pureRemoved] else []) ++
    (if changed > 0 then ["~" ++ Nat.repr changed] else [])
  if parts.isEmpty then "no changes" else String.intercalate " " parts

/-! ### conflict_resolver: diff blocks and the line-by-line merge -/

/-- conflict_resolver.DiffBlock. -/
structure DiffBlock where
  blockNum : Nat
  startLine : Nat
  endLine : Nat
  existingLines : List String
  incomingLines : List String
  contextBefore : List String
  contextAfter : List String
deriving DecidableEq, Repr

/-- Numbering and field extraction for the non-equal opcodes
(loop body of get_diff_blocks). -/
def diffBlocksOf (exLines inLines : List String) (contextLines : Nat) : List Opcode → Nat → List DiffBlock
  | [], _ => []
  | c :: rest, blockNum =>
    if c.tag = .equal then diffBlocksOf exLines inLines contextLines rest blockNum
    else
      ⟨blockNum + 1, c.i1 + 1, c.i2,
        sliceList exLines c.i1 c.i2,
        sliceList inLines c.j1 c.j2,
        sliceList exLines (c.i1 - contextLines) c.i1,
        sliceList exLines c.i2 (min exLines.length (c.i2 + contextLines))⟩ ::
      diffBlocksOf exLines inLines contextLines rest (blockNum + 1)

/-- conflict_resolver.get_diff_blocks (context_lines defaults to 2).
Python computes context_before as ex_lines[max(0, i1 - context):i1]; for
natural numbers the truncated subtraction i1 - context is that max. -/
def getDiffBlocks (existing incoming : String) (contextLines : Nat := 2) : List DiffBlock :=
  let exLines := pySplitlines false existing
  let inLines := pySplitlines false incoming
  diffBlocksOf exLines inLines contextLines (getOpcodes exLines inLines) 0

/-- The per-block answers of the interactive line-by-line merge prompt. -/
inductive MergeChoice where
  | keep
  | replace
  | both
  | skip
deriving DecidableEq, Repr

/-- Block-application loop of line_by_line_merge, threading
(result_lines, offset); offset is a Python int and may go negative. -/
def mergeBlocksLoop (choose : Nat → MergeChoice) :
    List DiffBlock → List String → Int → List String
  | [], resultLines, _ => resultLines
  | block :: rest, resultLines, offset =>
    let startIdx : Int := (block.startLine : Int) - 1 + offset
    let endIdx : Int := (block.endLine : Int) + offset
    match choose block.blockNum with
    | .keep => mergeBlocksLoop choose rest resultLines offset
    | .skip => mergeBlocksLoop choose rest resultLines offset
    | .replace =>
        mergeBlocksLoop choose rest
          (pySliceAssign resultLines startIdx endIdx block.incomingLines)
          (offset + block.incomingLines.length - block.existingLines.length)
    | .both =>
        let combined := block.existingLines ++ ["# --- incoming ---"] ++ block.incomingLines
        mergeBlocksLoop choose rest
          (pySliceAssign resultLines startIdx endIdx combined)
          (offset + combined.length - block.existingLines.length)

/-- conflict_resolver.line_by_line_merge, with the interactive prompt
answers supplied as a function from block number to choice. -/
def lineByLineMerge (existing incoming : String) (choose : Nat → MergeChoice) : String :=
  let blocks := getDiffBlocks existing incoming
  if blocks.isEmpty then existing
  else
    String.intercalate "\n"
      (mergeBlocksLoop choose blocks (pySplitlines false existing) 0)

/-! ### Duplicate-name generation -/

/-- pathlib PurePath.name of a path string: the final non-empty component
after splitting on the path separator. -/
def pyPathName (p : String) : String :=
  ((pySplitChar '/' p).filter (fun s => s ≠ "")).getLastD ""

/-- Index of the last dot in a name (pathlib uses str.rfind). -/
def lastDotIdx (name : String) : Option Nat :=
  ((List.range name.length).filter (fun i => name.data.getD i ' ' = '.')).getLast?

/-- pathlib PurePath.suffix: from the last dot, when it is neither leading
nor trailing. -/
def pyPathSuffix (p : String) : String :=
  let name := pyPathName p
  match lastDotIdx name with
  | some i => if 0 < i ∧ i < name.length - 1 then String.mk (name.data.drop i) else ""
  | none => ""

/-- pathlib PurePath.stem: the name with the suffix removed. -/
def pyPathStem (p : String) : String :=
  let name := pyPathName p
  match lastDotIdx name with
  | some i => if 0 < i ∧ i < name.length - 1 then String.mk (name.data.take i) else name
  | none => name

/-- Candidate file name stem_counter+suffix tried by get_duplicate_name. -/
def dupCandidate (stem suffix : String) (counter : Nat) : String :=
  stem ++ "_" ++ Nat.repr counter ++ suffix

/-- conflict_resolver.get_duplicate_name: the target directory is modelled
by the list of names existing in it.  The Python while loop tries
counter = 1, 2, ...; a free counter always exists among the first
entries.length + 1 candidates (they are pairwise distinct), so the bounded
search below is the loop. -/
def getDuplicateName (entries : List String) (baseName : String) : String :=
  match ((List.range (entries.length + 1)).map (fun n => n + 1)).find?
      (fun c => ¬ dupCandidate (pyPathStem baseName) (pyPathSuffix baseName) c ∈ entries) with
  | some c => dupCandidate (pyPathStem baseName) (pyPathSuffix baseName) c
  | none => ""

/-- Candidate directory name skillname_counter tried by
get_duplicate_skill_name. -/
def dupSkillCandidate (skillName : String) (counter : Nat) : String :=
  skillName ++ "_" ++ Nat.repr counter

/-- skill_conflict_resolver.get_duplicate_skill_name, modelled like
getDuplicateName. -/
def getDuplicateSkillName (entries : List String) (skillName : String) : String :=
  match ((List.range (entries.length + 1)).map (fun n => n + 1)).find?
      (fun c => ¬ dupSkillCandidate skillName c ∈ entries) with
  | some c => dupSkillCandidate skillName c
  | none => ""

/-! ### parser.parse_agent_file and skill_parser.parse_skill_md

Python values held in parsed metadata are dynamically typed; PyVal models
the cases the parsers distinguish.  yaml.safe_load is an external library
and is passed in as an oracle; raising yaml.YAMLError is one outcome.
-/

/-- Dynamic Python value, as far as the parsers inspect it. -/
inductive PyVal where
  | pyNone
  | pyStr (s : String)
  | pyList (xs : List PyVal)
  | pyDict (entries : List (String × PyVal))
  | pyOther

/-- Python truthiness for PyVal (objects of unknown shape are truthy). -/
def pyTruthy : PyVal → Bool
  | .pyNone => false
  | .pyStr s => s ≠ ""
  | .pyList xs => ¬ xs.isEmpty
  | .pyDict es => ¬ es.isEmpty
  | .pyOther => true

/-- dict.get(key, default) on parsed metadata (yaml mappings have unique
keys, so first-match lookup is dict lookup). -/
def dictGet (es : List (String × PyVal)) (key : String) (default : PyVal) : PyVal :=
  match es.find? (fun e => e.1 = key) with
  | some e => e.2
  | none => default

/-- Outcome of the yaml.safe_load oracle. -/
inductive YamlOutcome where
  | raises
  | returns (v : PyVal)

/-- Index of the last newline inside the maximal whitespace prefix, if
any.  This is where a greedy backslash-s-star followed by a mandatory
newline ends after backtracking. -/
def lastNlInWsPrefix : List Char → Option Nat
  | [] => none
  | c :: rest =>
    if pyIsSpace c then
      match lastNlInWsPrefix rest with
      | some k => some (k + 1)
      | none => if c = '\n' then some 0 else none
    else none

/-- All newline positions inside the maximal whitespace prefix, ascending.
The regex engine backtracks through them from the last to the first. -/
def nlPositionsInWsPrefix : List Char → List Nat
  | [] => []
  | c :: rest =>
    if pyIsSpace c then
      let tailPos := (nlPositionsInWsPrefix rest).map (fun k => k + 1)
      if c = '\n' then 0 :: tailPos else tailPos
    else []

/-- Lazy search for the closing delimiter: the least position q bearing
newline dash dash dash followed by a whitespace run containing a newline;
also returns the offset of the last newline in that run (greedy with
backtracking inside the closing whitespace). -/
def findCloseAux : List Char → Nat → Option (Nat × Nat)
  | '\n' :: '-' :: '-' :: '-' :: tail, q =>
    (match lastNlInWsPrefix tail with
     | some k => some (q, k)
     | none => findCloseAux ('-' :: '-' :: '-' :: tail) (q + 1))
  | _ :: rest, q => findCloseAux rest (q + 1)
  | [], _ => none

/-- The frontmatter split performed by re.match of the anchored pattern
dash dash dash, whitespace, newline, lazy group, newline, dash dash dash,
whitespace, newline, rest (re.DOTALL), returning (group 1, group 2) when
the pattern matches.  Backtracking order: the opening whitespace run is
tried greedily (latest newline first), and for each opening the closing
delimiter is searched lazily from the left. -/
def fmSplit (content : String) : Option (String × String) :=
  match content.data with
  | '-' :: '-' :: '-' :: rest =>
    (nlPositionsInWsPrefix rest).reverse.findSome? (fun p =>
      let fmtail := rest.drop (p + 1)
      (findCloseAux fmtail 0).map (fun qk =>
        (String.mk (fmtail.take qk.1),
         String.mk ((fmtail.drop (qk.1 + 4)).drop (qk.2 + 1)))))
  | _ => none

/-- models.Agent (dynamically typed fields hold PyVal). -/
structure EAgent where
  name : PyVal
  description : PyVal
  filePath : String
  agentType : PyVal
  tools : PyVal
  permissionMode : PyVal
  model : PyVal
  fullContent : Option String

/-- Description fallback shared by both parsers: frontmatter value when
truthy, else the first body line when short and non-empty, else the
placeholder. -/
def descriptionOf (es : List (String × PyVal)) (body : String) : PyVal :=
  let description := dictGet es "description" (.pyStr "")
  if pyTruthy description then description
  else
    let firstLine := ((pySplitChar '\n' (pyStrip body)).headD "")
    if firstLine ≠ "" ∧ firstLine.length < 200 then .pyStr firstLine
    else .pyStr "No description available"

/-- Tool-list normalization of parser.py: a comma-separated string is
split, stripped and filtered; a native list is used verbatim; anything
else becomes the empty list. -/
def toolsOf (v : PyVal) : PyVal :=
  match v with
  | .pyStr s =>
      .pyList ((((pySplitChar ',' s).map pyStrip).filter (fun t => t ≠ "")).map .pyStr)
  | .pyList xs => .pyList xs
  | _ => .pyList []

/-- parser.parse_agent_file on file content (the file read is modelled by
passing the content; stem is the path stem used for fallbacks).  Returns
none where the Python function returns None: the reachable case is a
loaded metadata value that is not a mapping, making metadata.get raise
AttributeError, which the enclosing try/except turns into None. -/
def parseAgentFile (yaml : String → YamlOutcome) (stem filePath content : String) :
    Option EAgent :=
  match fmSplit content with
  | none =>
    some ⟨.pyStr stem, .pyStr "No description available", filePath, .pyStr "unknown",
      .pyList [], .pyNone, .pyNone, some content⟩
  | some (yamlContent, body) =>
    let loaded : PyVal :=
      match yaml yamlContent with
      | .raises => .pyDict []
      | .returns v => if pyTruthy v then v else .pyDict []
    match loaded with
    | .pyDict es =>
      let permissionMode :=
        let pv := dictGet es "permissionMode" .pyNone
        if pyTruthy pv then pv else dictGet es "permission_mode" .pyNone
      some ⟨dictGet es "name" (.pyStr stem), descriptionOf es body, filePath,
        dictGet es "agent_type" (.pyStr "unknown"),
        toolsOf (dictGet es "tools" (.pyStr "")),
        permissionMode, dictGet es "model" .pyNone, some content⟩
    | _ => none

/-- Metadata dictionary produced by skill_parser.parse_skill_md. -/
structure SkillMeta where
  name : PyVal
  description : PyVal
  allowedTools : PyVal
  model : PyVal
  context : PyVal
  agent : PyVal
  version : PyVal
  fullContent : String

/-- Allowed-tools normalization of skill_parser.py: identical in shape to
toolsOf (string split and stripped, list verbatim, else empty). -/
def allowedToolsOf (v : PyVal) : PyVal :=
  match v with
  | .pyStr s =>
      .pyList ((((pySplitChar ',' s).map pyStrip).filter (fun t => t ≠ "")).map .pyStr)
  | .pyList xs => .pyList xs
  | _ => .pyList []

/-- skill_parser.parse_skill_md on file content; parentName is the name of
the directory containing SKILL.md. -/
def parseSkillMd (yaml : String → YamlOutcome) (parentName content : String) :
    Option SkillMeta :=
  match fmSplit content with
  | none =>
    some ⟨.pyStr parentName, .pyStr "No description available", .pyList [],
      .pyNone, .pyNone, .pyNone, .pyNone, content⟩
  | some (yamlContent, body) =>
    let loaded : PyVal :=
      match yaml yamlContent with
      | .raises => .pyDict []
      | .returns v => if pyTruthy v then v else .pyDict []
    match loaded with
    | .pyDict es =>
      some ⟨dictGet es "name" (.pyStr parentName), descriptionOf es body,
        allowedToolsOf (dictGet es "allowed-tools" (.pyStr "")),
        dictGet es "model" .pyNone, dictGet es "context" .pyNone,
        dictGet es "agent" .pyNone, dictGet es "version" .pyNone, content⟩
    | _ => none

/-! ### import_analyzer: agent comparison and archive analysis -/

/-- models.AgentComparison. -/
structure AgentComparisonE where
  agent : EAgent
  status : String
  localPath : Option String
  localContent : Option String
  archiveContent : String
  diffSummary : Option String

/-- Python equality test between a dynamically typed field and a string
literal (a non-string value compares unequal). -/
def pyValIsStr (v : PyVal) (t : String) : Bool :=
  match v with
  | .pyStr s => s = t
  | _ => false

/-- import_analyzer.compare_agents.  localPath is the display path the
source recomputes via find_local_agent_path; it does not influence the
status or the diff. -/
def compareAgents (archiveAgent : EAgent) (localAgent : Option EAgent)
    (localPath : Option String) : AgentComparisonE :=
  match localAgent with
  | none =>
    ⟨archiveAgent, "NEW", none, none, archiveAgent.fullContent.getD "", none⟩
  | some la =>
    let archiveContent := archiveAgent.fullContent.getD ""
    let localContent := la.fullContent.getD ""
    if computeContentHash archiveContent = computeContentHash localContent then
      ⟨archiveAgent, "IDENTICAL", localPath, some localContent, archiveContent, none⟩
    else
      ⟨archiveAgent, "CHANGED", localPath, some localContent, archiveContent,
        some (generateDiffSummary localContent archiveContent)⟩

/-- Local counterpart state for one archive agent: either no local file,
or a local file with the given stem and raw content (a corrupt file is one
whose parse returns none, which compare_agents then sees as no local
agent, exactly as the try/except in analyze_import_archive behaves). -/
inductive LocalState where
  | absent
  | present (stem : String) (raw : String)

/-- The local agent obtained for a LocalState: parse failures degrade to
none (analyze_import_archive lines 85-91). -/
def localAgentOf (yaml : String → YamlOutcome) : LocalState → Option EAgent
  | .absent => none
  | .present stem raw => parseAgentFile yaml stem stem raw

/-- import_analyzer._find_agents_in_directory: parse each .md file (given
as stem and content), skip failures, and force agent_type. -/
def findAgentsInDirectory (yaml : String → YamlOutcome)
    (files : List (String × String)) (agentType : String) : List EAgent :=
  (files.filterMap (fun f => parseAgentFile yaml f.1 f.1 f.2)).map
    (fun a => { a with agentType := .pyStr agentType })

/-- Comparison-building loop of analyze_import_archive: user agents then
project agents, each compared against its (possibly absent, possibly
corrupt) local counterpart. -/
def analyzeComparisons (yaml : String → YamlOutcome) (lookup : EAgent → LocalState)
    (userFiles projectFiles : List (String × String)) : List AgentComparisonE :=
  let archiveAgents :=
    findAgentsInDirectory yaml userFiles "user" ++
    findAgentsInDirectory yaml projectFiles "project"
  archiveAgents.map (fun a => compareAgents a (localAgentOf yaml (lookup a)) none)

/-- Status counters of analyze_import_archive (lines 103-105). -/
def statusCount (cs : List AgentComparisonE) (st : String) : Nat :=
  (cs.filter (fun c => c.status = st)).length

/-- Scope counters of analyze_import_archive (lines 108-109). -/
def agentTypeCount (cs : List AgentComparisonE) (t : String) : Nat :=
  (cs.filter (fun c => pyValIsStr c.agent.agentType t)).length

/-- models.SkillComparison (the fields compare_skill_directories sets). -/
structure SkillComparisonE where
  skill : SkillMeta
  status : String
  localPath : Option String
  localFiles : List (String × String)
  archiveFiles : List (String × String)
  addedFiles : List String
  removedFiles : List String
  modifiedFiles : List String
  diffSummary : Option String

/-- models.ImportPreview: skill_comparisons is a required field with no
default (models.py line 89). -/
structure ImportPreviewE where
  archivePath : String
  metadata : List (String × String)
  comparisons : List AgentComparisonE
  skillComparisons : List SkillComparisonE
  userAgentsCount : Nat
  projectAgentsCount : Nat
  newCount : Nat
  changedCount : Nat
  identicalCount : Nat

/-- analyze_import_archive after a successful extraction: it builds the
comparisons and the counts, then evaluates
ImportPreview(archive_path=..., metadata=..., comparisons=...,
user_agents_count=..., project_agents_count=..., new_count=...,
changed_count=..., identical_count=...) -- without skill_comparisons.
Because ImportPreview.skill_comparisons has no default, that call raises
TypeError, so the function never returns a preview. -/
def analyzeImportArchive (yaml : String → YamlOutcome) (lookup : EAgent → LocalState)
    (userFiles projectFiles : List (String × String)) : Except String ImportPreviewE :=
  let comparisons := analyzeComparisons yaml lookup userFiles projectFiles
  let _newCount := statusCount comparisons "NEW"
  let _changedCount := statusCount comparisons "CHANGED"
  let _identicalCount := statusCount comparisons "IDENTICAL"
  let _userCount := agentTypeCount comparisons "user"
  let _projectCount := agentTypeCount comparisons "project"
  .error "TypeError: ImportPreview.__init__() missing 1 required positional argument: skill_comparisons"

/-! ### skill_conflict_resolver: file hashing and directory comparison -/

/-- Content of one file on disk, also recording whether reading it
succeeds (an unreadable file still has bytes on disk). -/
inductive FileContent where
  | readable (bytes : List Nat)
  | unreadable (bytes : List Nat)

/-- The bytes a file holds, readable or not. -/
def FileContent.bytes : FileContent → List Nat
  | .readable bs => bs
  | .unreadable bs => bs

/-- skill_conflict_resolver.hash_file: sha256 hex digest of the byte
stream (reading in 4096-byte chunks feeds the same stream), and the empty
string when reading raises. -/
def hashFile : FileContent → String
  | .readable bs => sha256Hex bs
  | .unreadable _ => ""

/-- The hash mapping built from one directory scan (relative path to
digest in rglob order). -/
def hashDir (files : List (String × FileContent)) : List (String × String) :=
  files.map (fun f => (f.1, hashFile f.2))

/-- Keys of a hash mapping. -/
def mapKeys (m : List (String × String)) : List String :=
  m.map Prod.fst

/-- dict lookup in a hash mapping (paths from one directory scan are
distinct, so first match is dict lookup). -/
def mapLookup (m : List (String × String)) (k : String) : String :=
  match m.find? (fun e => e.1 = k) with
  | some e => e.2
  | none => ""

/-- Python sorted on strings. -/
def sortStrings (l : List String) : List String :=
  l.insertionSort (fun a b => a ≤ b)

/-- A skill directory that may be absent from disk. -/
def DirState := Option (List (String × FileContent))

/-- skill_conflict_resolver.compare_skill_directories.  The parse of the
incoming directory (parse_skill_directory) is external input here; when
it fails, the function raises ValueError. -/
def compareSkillDirectories (existingDir : DirState)
    (incomingFiles : List (String × FileContent))
    (parsedSkill : Option SkillMeta) : Except String SkillComparisonE :=
  let existingFiles : List (String × String) :=
    match existingDir with
    | none => []
    | some fs => hashDir fs
  let incomingHashes := hashDir incomingFiles
  let existingSet := (mapKeys existingFiles).dedup
  let incomingSet := (mapKeys incomingHashes).dedup
  let addedFiles := sortStrings (incomingSet.filter (fun k => ¬ k ∈ existingSet))
  let removedFiles := sortStrings (existingSet.filter (fun k => ¬ k ∈ incomingSet))
  let modifiedFiles :=
    (sortStrings (existingSet.filter (fun k => k ∈ incomingSet))).filter
      (fun k => mapLookup existingFiles k ≠ mapLookup incomingHashes k)
  let status :=
    if existingFiles.isEmpty then "NEW"
    else if ¬ addedFiles.isEmpty ∨ ¬ removedFiles.isEmpty ∨ ¬ modifiedFiles.isEmpty then "CHANGED"
    else "IDENTICAL"
  let diffSummary :=
    if status = "CHANGED" then
      some ("+" ++ Nat.repr addedFiles.length ++ " -" ++ Nat.repr removedFiles.length ++
        " ~" ++ Nat.repr modifiedFiles.length)
    else none
  match parsedSkill with
  | none => .error "ValueError: Failed to parse skill directory"
  | some skill =>
    .ok ⟨skill, status, (match existingDir with | none => none | some _ => some "existing"),
      existingFiles, incomingHashes, addedFiles, removedFiles, modifiedFiles, diffSummary⟩

/-! ### Archive extraction (tarfile) as used by analyze_import_archive and
transfer.import_agents_and_skills -/

/-- An archive file on disk: either a valid gzip tar with some content, or
a corrupt or truncated file that makes tarfile raise TarError. -/
inductive Archive (α : Type) where
  | valid (contents : α)
  | corrupt

/-- Errors surfaced by the import paths, by kind. -/
inductive ImportError where
  | fileNotFound (path : String)
  | corruptedArchive (message : String)
  | tarError (message : String)
  | ioError (message : String)
deriving DecidableEq, Repr

/-- tarfile.open + extractall into a fresh temporary directory: yields the
archive contents or raises TarError. -/
def extractArchive {α : Type} : Archive α → Except ImportError α
  | .valid contents => .ok contents
  | .corrupt => .error (.tarError "ReadError: not a gzip file")

/-- Extraction step of analyze_import_archive (lines 49-56): a TarError is
re-raised as RuntimeError naming a corrupted file. -/
def analyzeExtractStep {α : Type} (arch : Archive α) : Except ImportError α :=
  match extractArchive arch with
  | .ok contents => .ok contents
  | .error _ => .error (.corruptedArchive "Failed to extract archive. File may be corrupted.")

/-- transfer.import_agents_and_skills up to its use of the extracted tree:
the archive is extracted into a temporary directory (lines 326-331) before
any write to the permanent local tree; the rest of the import is the
supplied continuation on the extracted contents and the tree.  The pair
returned is (outcome, final local tree). -/
def importAgentsAndSkills {α τ : Type} (arch : Archive α) (localTree : τ)
    (importBody : α → τ → τ) : Except ImportError Unit × τ :=
  match extractArchive arch with
  | .ok contents => (.ok (), importBody contents localTree)
  | .error e => (.error e, localTree)

/-! ### Spec-side definitions used in the theorem statements -/

/-- Lines the edit script inserts for one opcode (the incoming side of
replace and insert opcodes). -/
def opcodeAddedLines (b : List String) (c : Opcode) : List String :=
  if c.tag = .replace ∨ c.tag = .insert then sliceList b c.j1 c.j2 else []

/-- Lines the edit script removes for one opcode (the existing side of
replace and delete opcodes). -/
def opcodeRemovedLines (a : List String) (c : Opcode) : List String :=
  if c.tag = .replace ∨ c.tag = .delete then sliceList a c.i1 c.i2 else []

/-- All inserted lines of the line-level edit script. -/
def addedLinesOf (a b : List String) : List String :=
  ((getOpcodes a b).map (opcodeAddedLines b)).flatten

/-- All removed lines of the line-level edit script. -/
def removedLinesOf (a b : List String) : List String :=
  ((getOpcodes a b).map (opcodeRemovedLines a)).flatten

/-- The rendering of generate_diff_summary from an added count and a
removed count. -/
def diffSummarySpec (added removed : Nat) : String :=
  let changed := min added removed
  let pureAdded := added - changed
  let pureRemoved := removed - changed
  let parts :=
    (if pureAdded > 0 then ["+" ++ Nat.repr pureAdded] else []) ++
    (if pureRemoved > 0 then ["-" ++ Nat.repr pureRemoved] else []) ++
    (if changed > 0 then ["~" ++ Nat.repr changed] else [])
  if parts.isEmpty then "no changes" else String.intercalate " " parts

/-- Inserted lines of the edit script that the counting loop of
generate_diff_summary actually counts (its header filter also skips
content lines beginning with two plus signs). -/
def countedAdded (existing incoming : String) : Nat :=
  ((addedLinesOf (pySplitlines true existing) (pySplitlines true incoming)).filter
    (fun l => ¬ pyStartsWith l "++")).length

/-- Removed lines of the edit script that the counting loop of
generate_diff_summary actually counts. -/
def countedRemoved (existing incoming : String) : Nat :=
  ((removedLinesOf (pySplitlines true existing) (pySplitlines true incoming)).filter
    (fun l => ¬ pyStartsWith l "--")).length

/-- Results of calling get_duplicate_name n times against a directory,
writing each result before the next call. -/
def dupCallResults (entries : List String) (baseName : String) : Nat → List String
  | 0 => []
  | n + 1 =>
    let prev := dupCallResults entries baseName n
    prev ++ [getDuplicateName (entries ++ prev) baseName]

/-- Pointwise match of m.size lines between a and b at positions
(m.i, m.j). -/
def MatchAt (a b : List String) (m : DMatch) : Prop :=
  ∀ t < m.size, a.getD (m.i + t) "" = b.getD (m.j + t) ""

/-- Soundness of a match for a window. -/
def BlockSound (a b : List String) (alo ahi blo bhi : Nat) (m : DMatch) : Prop :=
  alo ≤ m.i ∧ blo ≤ m.j ∧ m.i + m.size ≤ ahi ∧ m.j + m.size ≤ bhi ∧ MatchAt a b m

/-- A list of matching blocks in ascending document order between lower
and upper position bounds, each block matching pointwise. -/
def Chained (a b : List String) : Nat × Nat → List DMatch → Nat × Nat → Prop
  | lo, [], hi => lo.1 ≤ hi.1 ∧ lo.2 ≤ hi.2
  | lo, m :: rest, hi =>
    lo.1 ≤ m.i ∧ lo.2 ≤ m.j ∧ MatchAt a b m ∧
      Chained a b (m.i + m.size, m.j + m.size) rest hi

/-- A contiguous well-formed opcode list from lo to hi: each opcode starts
where the previous one ended, and equal opcodes relate equal slices. -/
def OpsChain (a b : List String) : Nat × Nat → List Opcode → Nat × Nat → Prop
  | lo, [], hi => lo = hi
  | lo, c :: rest, hi =>
    c.i1 = lo.1 ∧ c.j1 = lo.2 ∧ c.i1 ≤ c.i2 ∧ c.j1 ≤ c.j2 ∧
      (c.tag = .equal → c.i2 - c.i1 = c.j2 - c.j1 ∧
        ∀ t < c.i2 - c.i1, a.getD (c.i1 + t) "" = b.getD (c.j1 + t) "") ∧
      OpsChain a b (c.i2, c.j2) rest hi

/-- Membership test feeding row i of the dynamic-programming loop on a
self-comparison: column j carries the element of row i. -/
def symCond (s : List String) (i j : Nat) : Prop :=
  j ∈ b2jList s (s.getD i "")

/-- instance for decidability of symCond. -/
instance (s : List String) (i j : Nat) : Decidable (symCond s i j) :=
  inferInstanceAs (Decidable (j ∈ b2jList s (s.getD i "")))

/-- Chain value at row i, column j of the dynamic-programming loop of
find_longest_match on a self-comparison over the full window. -/
def symChain (s : List String) : Nat → Nat → Nat
  | 0, _j => if symCond s 0 _j then 1 else 0
  | _i + 1, 0 => if symCond s (_i + 1) 0 then 1 else 0
  | i + 1, j + 1 => if symCond s (i + 1) (j + 1) then symChain s i j + 1 else 0

/-! ## Theorems -/

/-- Sorting does not change membership. -/
theorem mem_sortStrings {x : String} {l : List String} : x ∈ sortStrings l ↔ x ∈ l :=
  (List.perm_insertionSort (fun a b => a ≤ b) l).mem_iff

/-- Splitting a list by three mutually exclusive, jointly exhaustive
predicates splits its length. -/
theorem three_filter_length {α : Type} (p q r : α → Bool) :
    ∀ l : List α,
      (∀ x ∈ l, (p x ∧ ¬ q x ∧ ¬ r x) ∨ (¬ p x ∧ q x ∧ ¬ r x) ∨ (¬ p x ∧ ¬ q x ∧ r x)) →
      (l.filter p).length + (l.filter q).length + (l.filter r).length = l.length
  | [], _ => rfl
  | x :: l, h => by
    have hx := h x (List.mem_cons_self x l)
    have ih := three_filter_length p q r l (fun y hy => h y (List.mem_cons_of_mem x hy))
    simp only [List.filter_cons]
    rcases hx with ⟨h1, h2, h3⟩ | ⟨h1, h2, h3⟩ | ⟨h1, h2, h3⟩ <;>
      simp [h1, h2, h3, List.length_cons] <;> omega

/-- Splitting a list by two mutually exclusive, jointly exhaustive
predicates splits its length. -/
theorem two_filter_length {α : Type} (p q : α → Bool) :
    ∀ l : List α,
      (∀ x ∈ l, (p x ∧ ¬ q x) ∨ (¬ p x ∧ q x)) →
      (l.filter p).length + (l.filter q).length = l.length
  | [], _ => rfl
  | x :: l, h => by
    have hx := h x (List.mem_cons_self x l)
    have ih := two_filter_length p q l (fun y hy => h y (List.mem_cons_of_mem x hy))
    simp only [List.filter_cons]
    rcases hx with ⟨h1, h2⟩ | ⟨h1, h2⟩ <;> simp [h1, h2, List.length_cons] <;> omega

/-- compare_agents copies the archive agent into the comparison. -/
theorem compareAgents_agent (a : EAgent) (la : Option EAgent) (lp : Option String) :
    (compareAgents a la lp).agent = a := by
  cases la with
  | none => rfl
  | some l =>
    unfold compareAgents
    by_cases hh : computeContentHash (a.fullContent.getD "") =
        computeContentHash (l.fullContent.getD "") <;> simp [hh]

/-- C1: compare_agents is total, classifying every archive agent against
every local state (absent, parseable, or corrupt-degraded-to-absent) as
exactly one of NEW, IDENTICAL and CHANGED, with NEW iff no local agent,
IDENTICAL iff the SHA-256 hashes of the two full contents coincide,
CHANGED otherwise, and no diff summary on NEW or IDENTICAL results. -/
theorem compare_agents_classification (yaml : String → YamlOutcome)
    (archiveAgent : EAgent) (st : LocalState) :
    ((compareAgents archiveAgent (localAgentOf yaml st) none).status = "NEW" ∨
      (compareAgents archiveAgent (localAgentOf yaml st) none).status = "IDENTICAL" ∨
      (compareAgents archiveAgent (localAgentOf yaml st) none).status = "CHANGED") ∧
    ((compareAgents archiveAgent (localAgentOf yaml st) none).status = "NEW" ↔
      localAgentOf yaml st = none) ∧
    ((compareAgents archiveAgent (localAgentOf yaml st) none).status = "IDENTICAL" ↔
      ∃ l, localAgentOf yaml st = some l ∧
        computeContentHash (archiveAgent.fullContent.getD "") =
          computeContentHash (l.fullContent.getD "")) ∧
    ((compareAgents archiveAgent (localAgentOf yaml st) none).status = "CHANGED" ↔
      ∃ l, localAgentOf yaml st = some l ∧
        computeContentHash (archiveAgent.fullContent.getD "") ≠
          computeContentHash (l.fullContent.getD "")) ∧
    (((compareAgents archiveAgent (localAgentOf yaml st) none).status = "NEW" ∨
        (compareAgents archiveAgent (localAgentOf yaml st) none).status = "IDENTICAL") →
      (compareAgents archiveAgent (localAgentOf yaml st) none).diffSummary = none) := by
  cases hla : localAgentOf yaml st with
  | none =>
    refine ⟨Or.inl rfl, ?_, ?_, ?_, ?_⟩ <;> simp [compareAgents]
  | some l =>
    by_cases hh : computeContentHash (archiveAgent.fullContent.getD "") =
        computeContentHash (l.fullContent.getD "")
    · refine ⟨Or.inr (Or.inl ?_), ?_, ?_, ?_, ?_⟩ <;>
        simp [compareAgents, hh]
    · refine ⟨Or.inr (Or.inr ?_), ?_, ?_, ?_, ?_⟩ <;>
        simp [compareAgents, hh]

/-- C8: a corrupt archive makes both import entry points fail with an
archive-corruption error (analyze_import_archive wraps the TarError into
a RuntimeError naming a corrupted file; import_agents_and_skills raises
the tarfile ReadError), never a generic I/O error, and the permanent
local tree is untouched. -/
theorem corrupt_archive_distinguishable {α τ : Type} (tree : τ) (body : α → τ → τ) :
    analyzeExtractStep (Archive.corrupt : Archive α) =
      .error (.corruptedArchive "Failed to extract archive. File may be corrupted.") ∧
    (∀ msg, analyzeExtractStep (Archive.corrupt : Archive α) ≠
      Except.error (.ioError msg)) ∧
    (importAgentsAndSkills (Archive.corrupt : Archive α) tree body).1 =
      .error (.tarError "ReadError: not a gzip file") ∧
    (∀ msg, (importAgentsAndSkills (Archive.corrupt : Archive α) tree body).1 ≠
      Except.error (.ioError msg)) ∧
    (importAgentsAndSkills (Archive.corrupt : Archive α) tree body).2 = tree := by
  refine ⟨rfl, ?_, rfl, ?_, rfl⟩ <;> intro msg h <;>
    simp [analyzeExtractStep, extractArchive, importAgentsAndSkills] at h

/-- Looking a key up in the hash mapping of a directory scan hashes the
content found at the first entry bearing that key. -/
theorem mapLookup_hashDir (fs : List (String × FileContent)) (rel : String) :
    mapLookup (hashDir fs) rel =
      match fs.find? (fun e => e.1 = rel) with
      | some e => hashFile e.2
      | none => "" := by
  induction fs with
  | nil => rfl
  | cons f fs ih =>
    by_cases h : f.1 = rel <;>
      simp [mapLookup, hashDir, List.find?_cons, h] <;>
      simpa [mapLookup, hashDir] using ih

/-- C10: hash_file is total, hashing readable bytes and degrading to the
empty digest on a read failure; consequently a path that is unreadable on
both sides of compare_skill_directories gets equal digests and is never
reported as modified, even when the on-disk bytes differ. -/
theorem hash_file_unreadable_never_modified :
    (∀ bs, hashFile (.readable bs) = sha256Hex bs) ∧
    (∀ bs, hashFile (.unreadable bs) = "") ∧
    ∀ (existingFs incomingFs : List (String × FileContent)) (skill : SkillMeta)
      (rel : String) (b1 b2 : List Nat) (comp : SkillComparisonE),
      b1 ≠ b2 →
      existingFs.find? (fun e => e.1 = rel) = some (rel, .unreadable b1) →
      incomingFs.find? (fun e => e.1 = rel) = some (rel, .unreadable b2) →
      compareSkillDirectories (some existingFs) incomingFs (some skill) = .ok comp →
      hashFile (.unreadable b1) = hashFile (.unreadable b2) ∧
        rel ∉ comp.modifiedFiles := by
  refine ⟨fun _ => rfl, fun _ => rfl, ?_⟩
  intro existingFs incomingFs skill rel b1 b2 comp _hne hfind1 hfind2 hcomp
  refine ⟨rfl, ?_⟩
  have h1 : mapLookup (hashDir existingFs) rel = "" := by
    rw [mapLookup_hashDir, hfind1]
    rfl
  have h2 : mapLookup (hashDir incomingFs) rel = "" := by
    rw [mapLookup_hashDir, hfind2]
    rfl
  unfold compareSkillDirectories at hcomp
  simp only [Except.ok.injEq] at hcomp
  subst hcomp
  intro hmem
  simp only [List.mem_filter, decide_eq_true_eq] at hmem
  exact hmem.2 (h1.trans h2.symm)

/-- C5: the directory comparison classifies every relative path by
presence and digest equality in the two hash mappings; the three sets are
pairwise disjoint, status is NEW exactly when the local mapping is empty,
CHANGED exactly when a local mapping exists and some set is non-empty,
and IDENTICAL otherwise. -/
theorem skill_directory_comparison (existingDir : DirState)
    (incomingFiles : List (String × FileContent)) (skill : SkillMeta) :
    ∃ comp : SkillComparisonE,
    compareSkillDirectories existingDir incomingFiles (some skill) = .ok comp ∧
    (∀ x, x ∈ comp.addedFiles ↔
      x ∈ mapKeys comp.archiveFiles ∧ ¬ x ∈ mapKeys comp.localFiles) ∧
    (∀ x, x ∈ comp.removedFiles ↔
      x ∈ mapKeys comp.localFiles ∧ ¬ x ∈ mapKeys comp.archiveFiles) ∧
    (∀ x, x ∈ comp.modifiedFiles ↔
      x ∈ mapKeys comp.localFiles ∧ x ∈ mapKeys comp.archiveFiles ∧
        mapLookup comp.localFiles x ≠ mapLookup comp.archiveFiles x) ∧
    (∀ x, ¬ (x ∈ comp.addedFiles ∧ x ∈ comp.removedFiles)) ∧
    (∀ x, ¬ (x ∈ comp.addedFiles ∧ x ∈ comp.modifiedFiles)) ∧
    (∀ x, ¬ (x ∈ comp.removedFiles ∧ x ∈ comp.modifiedFiles)) ∧
    (comp.status = "NEW" ↔ comp.localFiles = []) ∧
    (comp.status = "CHANGED" ↔ comp.localFiles ≠ [] ∧
      (comp.addedFiles ≠ [] ∨ comp.removedFiles ≠ [] ∨ comp.modifiedFiles ≠ [])) ∧
    (comp.status = "IDENTICAL" ↔ comp.localFiles ≠ [] ∧
      comp.addedFiles = [] ∧ comp.removedFiles = [] ∧ comp.modifiedFiles = []) := by
  refine ⟨_, rfl, ?_⟩
  set existingFiles : List (String × String) :=
    (match existingDir with
     | none => []
     | some fs => hashDir fs) with hex
  set incomingHashes := hashDir incomingFiles with hin
  set existingSet := (mapKeys existingFiles).dedup with hes
  set incomingSet := (mapKeys incomingHashes).dedup with his
  set addedFiles := sortStrings (incomingSet.filter (fun k => ¬ k ∈ existingSet)) with had
  set removedFiles := sortStrings (existingSet.filter (fun k => ¬ k ∈ incomingSet)) with hrm
  set modifiedFiles :=
    (sortStrings (existingSet.filter (fun k => k ∈ incomingSet))).filter
      (fun k => mapLookup existingFiles k ≠ mapLookup incomingHashes k) with hmd
  have hmemA : ∀ x, x ∈ addedFiles ↔
      x ∈ mapKeys incomingHashes ∧ ¬ x ∈ mapKeys existingFiles := by
    intro x
    rw [had, mem_sortStrings, List.mem_filter]
    simp [his, hes, List.mem_dedup]
  have hmemR : ∀ x, x ∈ removedFiles ↔
      x ∈ mapKeys existingFiles ∧ ¬ x ∈ mapKeys incomingHashes := by
    intro x
    rw [hrm, mem_sortStrings, List.mem_filter]
    simp [his, hes, List.mem_dedup]
  have hmemM : ∀ x, x ∈ modifiedFiles ↔
      x ∈ mapKeys existingFiles ∧ x ∈ mapKeys incomingHashes ∧
        mapLookup existingFiles x ≠ mapLookup incomingHashes x := by
    intro x
    rw [hmd, List.mem_filter, mem_sortStrings, List.mem_filter]
    simp [his, hes, List.mem_dedup, and_assoc]
  have hstat :
      (if existingFiles.isEmpty then "NEW"
       else if ¬ addedFiles.isEmpty ∨ ¬ removedFiles.isEmpty ∨ ¬ modifiedFiles.isEmpty then
         "CHANGED"
       else "IDENTICAL") = "NEW" ∨
      (if existingFiles.isEmpty then "NEW"
       else if ¬ addedFiles.isEmpty ∨ ¬ removedFiles.isEmpty ∨ ¬ modifiedFiles.isEmpty then
         "CHANGED"
       else "IDENTICAL") = "CHANGED" ∨
      (if existingFiles.isEmpty then "NEW"
       else if ¬ addedFiles.isEmpty ∨ ¬ removedFiles.isEmpty ∨ ¬ modifiedFiles.isEmpty then
         "CHANGED"
       else "IDENTICAL") = "IDENTICAL" := by
    split
    · exact Or.inl rfl
    · split
      · exact Or.inr (Or.inl rfl)
      · exact Or.inr (Or.inr rfl)
  refine ⟨hmemA, hmemR, hmemM, ?_, ?_, ?_, ?_, ?_, ?_⟩
  · intro x ⟨ha, hr⟩
    exact ((hmemA x).1 ha).2 ((hmemR x).1 hr).1
  · intro x ⟨ha, hm⟩
    exact ((hmemA x).1 ha).2 ((hmemM x).1 hm).1
  · intro x ⟨hr, hm⟩
    exact ((hmemR x).1 hr).2 ((hmemM x).1 hm).2.1
  · show (if existingFiles.isEmpty then "NEW"
       else if ¬ addedFiles.isEmpty ∨ ¬ removedFiles.isEmpty ∨ ¬ modifiedFiles.isEmpty then
         "CHANGED"
       else "IDENTICAL") = "NEW" ↔ existingFiles = []
    by_cases he : existingFiles.isEmpty
    · simp only [he, if_pos]
      simpa [List.isEmpty_iff] using he
    · rw [if_neg he]
      constructor
      · intro h
        split at h <;> exact absurd h (by decide)
      · intro h
        exact absurd (by simpa [List.isEmpty_iff] using h) he
  · show (if existingFiles.isEmpty then "NEW"
       else if ¬ addedFiles.isEmpty ∨ ¬ removedFiles.isEmpty ∨ ¬ modifiedFiles.isEmpty then
         "CHANGED"
       else "IDENTICAL") = "CHANGED" ↔ existingFiles ≠ [] ∧
         (addedFiles ≠ [] ∨ removedFiles ≠ [] ∨ modifiedFiles ≠ [])
    by_cases he : existingFiles.isEmpty
    · rw [if_pos he]
      simp [List.isEmpty_iff] at he
      simp [he]
    · rw [if_neg he]
      by_cases hc : ¬ addedFiles.isEmpty ∨ ¬ removedFiles.isEmpty ∨ ¬ modifiedFiles.isEmpty
      · rw [if_pos hc]
        simp only [List.isEmpty_iff] at he hc
        simp [he, hc]
      · rw [if_neg hc]
        simp only [List.isEmpty_iff] at he hc
        push_neg at hc
        simp [he, hc]
  · show (if existingFiles.isEmpty then "NEW"
       else if ¬ addedFiles.isEmpty ∨ ¬ removedFiles.isEmpty ∨ ¬ modifiedFiles.isEmpty then
         "CHANGED"
       else "IDENTICAL") = "IDENTICAL" ↔ existingFiles ≠ [] ∧
         addedFiles = [] ∧ removedFiles = [] ∧ modifiedFiles = []
    by_cases he : existingFiles.isEmpty
    · rw [if_pos he]
      simp [List.isEmpty_iff] at he
      simp [he]
    · rw [if_neg he]
      by_cases hc : ¬ addedFiles.isEmpty ∨ ¬ removedFiles.isEmpty ∨ ¬ modifiedFiles.isEmpty
      · rw [if_pos hc]
        simp only [List.isEmpty_iff] at he hc
        constructor
        · intro h
          exact absurd h (by decide)
        · intro h
          rcases hc with hc | hc | hc <;> exact absurd (by tauto) hc
      · rw [if_neg hc]
        simp only [List.isEmpty_iff] at he hc
        push_neg at hc
        simp [he, hc]

/-- Witness for C10: a path unreadable in both directories, with
different on-disk bytes, equal (empty) digests, and not reported
modified. -/
theorem hash_file_unreadable_never_modified_witness :
    ([0] : List Nat) ≠ [1] ∧
    [("a", FileContent.unreadable [0])].find? (fun e => e.1 = "a") =
      some ("a", .unreadable [0]) ∧
    [("a", FileContent.unreadable [1])].find? (fun e => e.1 = "a") =
      some ("a", .unreadable [1]) ∧
    compareSkillDirectories (some [("a", FileContent.unreadable [0])])
        [("a", FileContent.unreadable [1])]
        (some ⟨.pyNone, .pyNone, .pyList [], .pyNone, .pyNone, .pyNone, .pyNone, ""⟩) =
      .ok ⟨⟨.pyNone, .pyNone, .pyList [], .pyNone, .pyNone, .pyNone, .pyNone, ""⟩,
        "IDENTICAL", some "existing", [("a", "")], [("a", "")], [], [], [], none⟩ ∧
    (hashFile (.unreadable [0]) = hashFile (.unreadable [1]) ∧
      "a" ∉ (⟨⟨.pyNone, .pyNone, .pyList [], .pyNone, .pyNone, .pyNone, .pyNone, ""⟩,
        "IDENTICAL", some "existing", [("a", "")], [("a", "")], [], [], [],
        none⟩ : SkillComparisonE).modifiedFiles) :=
  ⟨by decide, by rfl, by rfl, by rfl,
    (hash_file_unreadable_never_modified.2.2
      [("a", FileContent.unreadable [0])] [("a", FileContent.unreadable [1])]
      ⟨.pyNone, .pyNone, .pyList [], .pyNone, .pyNone, .pyNone, .pyNone, ""⟩
      "a" [0] [1] _ (by decide) (by rfl) (by rfl) (by rfl))⟩

/-- compare_agents only produces the three statuses. -/
theorem compareAgents_status_cases (a : EAgent) (la : Option EAgent) (lp : Option String) :
    (compareAgents a la lp).status = "NEW" ∨
    (compareAgents a la lp).status = "IDENTICAL" ∨
    (compareAgents a la lp).status = "CHANGED" := by
  cases la with
  | none => exact Or.inl rfl
  | some l =>
    unfold compareAgents
    by_cases hh : computeContentHash (a.fullContent.getD "") =
        computeContentHash (l.fullContent.getD "") <;> simp [hh]

/-- Every comparison built by the analyze loop carries an agent whose
type was forced to user or project. -/
theorem analyzeComparisons_agentType (yaml : String → YamlOutcome)
    (lookup : EAgent → LocalState) (userFiles projectFiles : List (String × String)) :
    ∀ c ∈ analyzeComparisons yaml lookup userFiles projectFiles,
      c.agent.agentType = PyVal.pyStr "user" ∨ c.agent.agentType = PyVal.pyStr "project" := by
  intro c hc
  unfold analyzeComparisons at hc
  rcases List.mem_map.1 hc with ⟨a, ha, rfl⟩
  rw [compareAgents_agent]
  rcases List.mem_append.1 ha with ha | ha <;>
    [left; right] <;>
    · unfold findAgentsInDirectory at ha
      rcases List.mem_map.1 ha with ⟨a0, _, rfl⟩
      rfl

/-- C4: the status and scope counts computed over the comparison list of
analyze_import_archive always sum to the number of comparisons; however
analyze_import_archive itself never returns the preview: its
ImportPreview(...) call omits the required skill_comparisons field
(models.py line 89), so every call ends in a TypeError. -/
theorem analyze_import_counts_and_typeerror :
    (∀ (yaml : String → YamlOutcome) (lookup : EAgent → LocalState)
        (userFiles projectFiles : List (String × String)),
      statusCount (analyzeComparisons yaml lookup userFiles projectFiles) "NEW" +
        statusCount (analyzeComparisons yaml lookup userFiles projectFiles) "CHANGED" +
        statusCount (analyzeComparisons yaml lookup userFiles projectFiles) "IDENTICAL" =
        (analyzeComparisons yaml lookup userFiles projectFiles).length ∧
      agentTypeCount (analyzeComparisons yaml lookup userFiles projectFiles) "user" +
        agentTypeCount (analyzeComparisons yaml lookup userFiles projectFiles) "project" =
        (analyzeComparisons yaml lookup userFiles projectFiles).length) ∧
    (∀ (yaml : String → YamlOutcome) (lookup : EAgent → LocalState)
        (userFiles projectFiles : List (String × String)),
      analyzeImportArchive yaml lookup userFiles projectFiles = .error
        "TypeError: ImportPreview.__init__() missing 1 required positional argument: skill_comparisons") := by
  refine ⟨fun yaml lookup userFiles projectFiles => ⟨?_, ?_⟩, fun _ _ _ _ => rfl⟩
  · apply three_filter_length
    intro c hc
    have h3 := compareAgents_status_cases c.agent none none
    have hcases : c.status = "NEW" ∨ c.status = "IDENTICAL" ∨ c.status = "CHANGED" := by
      unfold analyzeComparisons at hc
      rcases List.mem_map.1 hc with ⟨a, _, rfl⟩
      exact compareAgents_status_cases a _ none
    rcases hcases with h | h | h <;> rw [h] <;> simp
  · apply two_filter_length
    intro c hc
    have := analyzeComparisons_agentType yaml lookup userFiles projectFiles c hc
    rcases this with h | h <;> rw [h] <;> simp [pyValIsStr]

/-- Nat.toDigitsCore only appends to its accumulator. -/
theorem toDigitsCore_append (b : Nat) :
    ∀ (fuel n : Nat) (acc : List Char),
      Nat.toDigitsCore b fuel n acc = Nat.toDigitsCore b fuel n [] ++ acc := by
  intro fuel
  induction fuel with
  | zero => intro n acc; rfl
  | succ fuel ih =>
    intro n acc
    unfold Nat.toDigitsCore
    by_cases h : n / b = 0
    · simp [h]
    · simp only [h, if_neg, ite_false]
      rw [ih (n / b) (Nat.digitChar (n % b) :: acc), ih (n / b) [Nat.digitChar (n % b)]]
      simp

/-- Decimal digit characters decode back to their value. -/
theorem digitChar_decode : ∀ r < 10, (Nat.digitChar r).toNat - 48 = r := by decide

/-- Folding the decimal decoder over the digit string of n recovers n. -/
theorem decode_toDigitsCore :
    ∀ (fuel n seed : Nat), n < fuel →
      (Nat.toDigitsCore 10 fuel n []).foldl (fun acc c => acc * 10 + (c.toNat - 48)) seed =
        seed * 10 ^ (Nat.toDigitsCore 10 fuel n []).length + n := by
  intro fuel
  induction fuel with
  | zero => omega
  | succ fuel ih =>
    intro n seed hlt
    by_cases h : n / 10 = 0
    · have hn : n < 10 := by omega
      unfold Nat.toDigitsCore
      simp [h, digitChar_decode n hn, Nat.mod_eq_of_lt hn]
    · have hge : 10 ≤ n := by omega
      have hdiv : n / 10 < fuel := by
        have h1 : n / 10 < n := Nat.div_lt_self (by omega) (by omega)
        omega
      have hsplit : Nat.toDigitsCore 10 (fuel + 1) n [] =
          Nat.toDigitsCore 10 fuel (n / 10) [] ++ [Nat.digitChar (n % 10)] := by
        conv_lhs => unfold Nat.toDigitsCore
        simp only [h, if_neg, ite_false]
        exact toDigitsCore_append 10 fuel (n / 10) [Nat.digitChar (n % 10)]
      rw [hsplit, List.foldl_append, ih (n / 10) seed hdiv]
      have hmod : n % 10 < 10 := Nat.mod_lt n (by omega)
      simp only [List.foldl, List.length_append, List.length_cons, List.length_nil]
      rw [digitChar_decode (n % 10) hmod]
      have : seed * 10 ^ ((Nat.toDigitsCore 10 fuel (n / 10) []).length + 1) =
          seed * 10 ^ (Nat.toDigitsCore 10 fuel (n / 10) []).length * 10 := by
        ring
      rw [this]
      have := Nat.div_add_mod n 10
      ring_nf
      omega

/-- The decimal rendering of naturals is injective. -/
theorem natRepr_injective : Function.Injective Nat.repr := by
  intro m n h
  have hdata : Nat.toDigits 10 m = Nat.toDigits 10 n := by
    have := congrArg String.data h
    simpa [Nat.repr, List.asString] using this
  have hm := decode_toDigitsCore (m + 1) m 0 (Nat.lt_succ_self m)
  have hn := decode_toDigitsCore (n + 1) n 0 (Nat.lt_succ_self n)
  unfold Nat.toDigits at hdata
  rw [hdata] at hm
  simp only [Nat.zero_mul, Nat.zero_add] at hm hn
  omega

/-- Candidate names with the same stem and suffix and different counters
differ. -/
theorem dupCandidate_injective (stem suffix : String) :
    Function.Injective (dupCandidate stem suffix) := by
  intro c1 c2 h
  apply natRepr_injective
  apply String.ext
  have hd := congrArg String.data h
  simp only [dupCandidate, String.data_append, List.append_assoc] at hd
  have h1 := List.append_cancel_left hd
  have h2 := List.append_cancel_left h1
  exact List.append_cancel_right h2

/-- Candidate skill directory names with different counters differ. -/
theorem dupSkillCandidate_injective (skillName : String) :
    Function.Injective (dupSkillCandidate skillName) := by
  intro c1 c2 h
  apply natRepr_injective
  apply String.ext
  have hd := congrArg String.data h
  simp only [dupSkillCandidate, String.data_append, List.append_assoc] at hd
  exact List.append_cancel_left (List.append_cancel_left hd)

/-- Among length + 1 pairwise distinct candidate names, one is missing
from the entry list. -/
theorem exists_free_candidate (entries : List String) (mk : Nat → String)
    (hinj : Function.Injective mk) :
    ∃ c ∈ (List.range (entries.length + 1)).map (fun n => n + 1), ¬ mk c ∈ entries := by
  by_contra hall
  push_neg at hall
  have hnodup : (((List.range (entries.length + 1)).map (fun n => n + 1)).map mk).Nodup := by
    refine List.Nodup.map (fun a b hab => hinj hab) ?_
    exact List.Nodup.map (fun a b hab => by omega) (List.nodup_range _)
  have hsub : (((List.range (entries.length + 1)).map (fun n => n + 1)).map mk).toFinset ⊆
      entries.toFinset := by
    intro x hx
    rw [List.mem_toFinset] at hx ⊢
    rcases List.mem_map.1 hx with ⟨c, hc, rfl⟩
    exact hall c hc
  have hcard1 :
      (((List.range (entries.length + 1)).map (fun n => n + 1)).map mk).toFinset.card =
        entries.length + 1 := by
    rw [List.toFinset_card_of_nodup hnodup]
    simp
  have hcard2 := Finset.card_le_card hsub
  have hcard3 := entries.toFinset_card_le
  omega

/-- The first hit of find? on an ascending range: the predicate holds
there and fails strictly before. -/
theorem find?_range'_charact (p : Nat → Bool) :
    ∀ (n s c : Nat), (List.range' s n).find? p = some c →
      p c = true ∧ s ≤ c ∧ c < s + n ∧ ∀ m, s ≤ m → m < c → p m = false := by
  intro n
  induction n with
  | zero => intro s c h; simp [List.range'] at h
  | succ n ih =>
    intro s c h
    rw [List.range'_succ] at h
    rw [List.find?_cons] at h
    cases hp : p s with
    | true =>
      rw [hp] at h
      simp only [Option.some.injEq] at h
      subst h
      exact ⟨hp, Nat.le_refl s, by omega, fun m h1 h2 => by omega⟩
    | false =>
      rw [hp] at h
      have := ih (s + 1) c h
      refine ⟨this.1, by omega, by omega, ?_⟩
      intro m h1 h2
      rcases Nat.eq_or_lt_of_le h1 with rfl | h1
      · exact hp
      · exact this.2.2.2 m h1 h2

/-- find? on an ascending range finds the least satisfying value when it
lies in the range. -/
theorem find?_range'_eq_some (p : Nat → Bool) :
    ∀ (n s c : Nat), s ≤ c → c < s + n → p c = true →
      (∀ m, s ≤ m → m < c → p m = false) →
      (List.range' s n).find? p = some c := by
  intro n
  induction n with
  | zero => omega
  | succ n ih =>
    intro s c h1 h2 h3 h4
    rw [List.range'_succ, List.find?_cons]
    rcases Nat.eq_or_lt_of_le h1 with rfl | hlt
    · rw [h3]
    · rw [h4 s (Nat.le_refl s) hlt]
      exact ih (s + 1) c hlt (by omega) h3 (fun m hm => h4 m (by omega))

/-- The candidate list searched by the duplicate-name functions is the
ascending range 1, ..., length + 1. -/
theorem candidates_eq_range' (len : Nat) :
    (List.range (len + 1)).map (fun n => n + 1) = List.range' 1 (len + 1) := by
  rw [List.range'_eq_map_range]
  exact List.map_congr_left (fun a _ => Nat.add_comm a 1)

/-- Characterization of one call to get_duplicate_name: the returned name
bears the least free counter. -/
theorem getDuplicateName_minimal (entries : List String) (baseName : String) :
    ∃ c, getDuplicateName entries baseName =
        dupCandidate (pyPathStem baseName) (pyPathSuffix baseName) c ∧
      1 ≤ c ∧
      ¬ dupCandidate (pyPathStem baseName) (pyPathSuffix baseName) c ∈ entries ∧
      ∀ m, 1 ≤ m → m < c →
        dupCandidate (pyPathStem baseName) (pyPathSuffix baseName) m ∈ entries := by
  unfold getDuplicateName
  rcases hfind : ((List.range (entries.length + 1)).map (fun n => n + 1)).find?
      (fun c => ¬ dupCandidate (pyPathStem baseName) (pyPathSuffix baseName) c ∈ entries)
    with _ | c
  · exfalso
    rcases exists_free_candidate entries
        (dupCandidate (pyPathStem baseName) (pyPathSuffix baseName))
        (dupCandidate_injective _ _) with ⟨c, hc, hfree⟩
    apply List.find?_eq_none.1 hfind c hc
    simp [hfree]
  · rw [candidates_eq_range'] at hfind
    have hch := find?_range'_charact _ _ _ _ hfind
    refine ⟨c, rfl, hch.2.1, ?_, ?_⟩
    · have := hch.1
      simpa using this
    · intro m h1 h2
      have := hch.2.2.2 m h1 h2
      simpa using this

/-- Characterization of one call to get_duplicate_skill_name. -/
theorem getDuplicateSkillName_minimal (entries : List String) (skillName : String) :
    ∃ c, getDuplicateSkillName entries skillName = dupSkillCandidate skillName c ∧
      1 ≤ c ∧ ¬ dupSkillCandidate skillName c ∈ entries ∧
      ∀ m, 1 ≤ m → m < c → dupSkillCandidate skillName m ∈ entries := by
  unfold getDuplicateSkillName
  rcases hfind : ((List.range (entries.length + 1)).map (fun n => n + 1)).find?
      (fun c => ¬ dupSkillCandidate skillName c ∈ entries)
    with _ | c
  · exfalso
    rcases exists_free_candidate entries (dupSkillCandidate skillName)
        (dupSkillCandidate_injective _) with ⟨c, hc, hfree⟩
    apply List.find?_eq_none.1 hfind c hc
    simp [hfree]
  · rw [candidates_eq_range'] at hfind
    have hch := find?_range'_charact _ _ _ _ hfind
    refine ⟨c, rfl, hch.2.1, ?_, ?_⟩
    · have := hch.1
      simpa using this
    · intro m h1 h2
      have := hch.2.2.2 m h1 h2
      simpa using this

/-- C6: duplicate-name generation appends the smallest numeric suffix not
already present in the target (both for agent files, stem_N+extension,
and for skill directories, name_N); iterating it N times against a target
with no pre-existing duplicates yields name_1 through name_N without
collisions. -/
theorem duplicate_name_generation :
    (∀ (entries : List String) (baseName : String),
      ∃ c, getDuplicateName entries baseName =
          dupCandidate (pyPathStem baseName) (pyPathSuffix baseName) c ∧
        1 ≤ c ∧
        ¬ dupCandidate (pyPathStem baseName) (pyPathSuffix baseName) c ∈ entries ∧
        ∀ m, 1 ≤ m → m < c →
          dupCandidate (pyPathStem baseName) (pyPathSuffix baseName) m ∈ entries) ∧
    (∀ (entries : List String) (skillName : String),
      ∃ c, getDuplicateSkillName entries skillName = dupSkillCandidate skillName c ∧
        1 ≤ c ∧ ¬ dupSkillCandidate skillName c ∈ entries ∧
        ∀ m, 1 ≤ m → m < c → dupSkillCandidate skillName m ∈ entries) ∧
    (∀ (entries : List String) (baseName : String) (n : Nat),
      (∀ k, 1 ≤ k →
        ¬ dupCandidate (pyPathStem baseName) (pyPathSuffix baseName) k ∈ entries) →
      dupCallResults entries baseName n =
        (List.range n).map
          (fun i => dupCandidate (pyPathStem baseName) (pyPathSuffix baseName) (i + 1))) := by
  refine ⟨getDuplicateName_minimal, getDuplicateSkillName_minimal, ?_⟩
  intro entries baseName n h
  induction n with
  | zero => rfl
  | succ n ih =>
    have hstep : getDuplicateName
        (entries ++ (List.range n).map
          (fun i => dupCandidate (pyPathStem baseName) (pyPathSuffix baseName) (i + 1)))
        baseName =
        dupCandidate (pyPathStem baseName) (pyPathSuffix baseName) (n + 1) := by
      unfold getDuplicateName
      have hlen : (entries ++ (List.range n).map
          (fun i => dupCandidate (pyPathStem baseName) (pyPathSuffix baseName) (i + 1))).length =
          entries.length + n := by simp
      rw [hlen, candidates_eq_range']
      have hfind : (List.range' 1 (entries.length + n + 1)).find?
          (fun c => ¬ dupCandidate (pyPathStem baseName) (pyPathSuffix baseName) c ∈
            entries ++ (List.range n).map
              (fun i => dupCandidate (pyPathStem baseName) (pyPathSuffix baseName) (i + 1))) =
          some (n + 1) := by
        apply find?_range'_eq_some
        · omega
        · omega
        · simp only [decide_not, Bool.not_eq_true', decide_eq_false_iff_not]
          intro hmem
          rcases List.mem_append.1 hmem with hmem | hmem
          · exact h (n + 1) (by omega) hmem
          · rcases List.mem_map.1 hmem with ⟨i, hi, heq⟩
            have := dupCandidate_injective _ _ heq
            have hi2 := List.mem_range.1 hi
            omega
        · intro m h1 h2
          simp only [decide_not, Bool.not_eq_false', decide_eq_true_eq]
          refine List.mem_append.2 (Or.inr ?_)
          refine List.mem_map.2 ⟨m - 1, List.mem_range.2 (by omega), ?_⟩
          congr 1
          omega
      rw [hfind]
    show dupCallResults entries baseName n ++ [getDuplicateName
        (entries ++ dupCallResults entries baseName n) baseName] = _
    rw [ih, hstep, List.range_succ, List.map_append]
    rfl

/-- Witness for C6: three calls against an empty directory produce
agent_1.md, agent_2.md, agent_3.md. -/
theorem duplicate_name_generation_witness :
    (∀ k, 1 ≤ k →
      ¬ dupCandidate (pyPathStem "agent.md") (pyPathSuffix "agent.md") k ∈
        ([] : List String)) ∧
    dupCallResults [] "agent.md" 3 = ["agent_1.md", "agent_2.md", "agent_3.md"] := by
  have h : ∀ k, 1 ≤ k →
      ¬ dupCandidate (pyPathStem "agent.md") (pyPathSuffix "agent.md") k ∈
        ([] : List String) := by
    intro k _ hk
    exact (List.not_mem_nil _ hk)
  refine ⟨h, ?_⟩
  rw [duplicate_name_generation.2.2 [] "agent.md" 3 h]
  decide

/-- C7: the metadata parser is a total function (exceptions inside it are
caught and become None); when no frontmatter delimiters are found it
returns the whole text as the body with empty metadata, agent type
unknown and the placeholder description, and when the frontmatter is
found but the structured decode raises, it substitutes an empty mapping
and continues. -/
theorem parse_agent_file_degrades (yaml : String → YamlOutcome)
    (stem filePath content fm body : String) :
    (fmSplit content = none →
      parseAgentFile yaml stem filePath content =
        some ⟨.pyStr stem, .pyStr "No description available", filePath, .pyStr "unknown",
          .pyList [], .pyNone, .pyNone, some content⟩) ∧
    (fmSplit content = some (fm, body) → yaml fm = .raises →
      parseAgentFile yaml stem filePath content =
        some ⟨.pyStr stem, descriptionOf [] body, filePath, .pyStr "unknown",
          .pyList [], .pyNone, .pyNone, some content⟩) := by
  constructor
  · intro h
    unfold parseAgentFile
    rw [h]
  · intro h hy
    simp only [parseAgentFile, h, hy]
    rfl

/-- Witness for C7: a plain text without frontmatter and a text whose
frontmatter decode raises. -/
theorem parse_agent_file_degrades_witness :
    (fmSplit "hello" = none ∧
      parseAgentFile (fun _ => .raises) "st" "st.md" "hello" =
        some ⟨.pyStr "st", .pyStr "No description available", "st.md", .pyStr "unknown",
          .pyList [], .pyNone, .pyNone, some "hello"⟩) ∧
    (fmSplit "---\na\n---\nb" = some ("a", "b") ∧
      (fun _ : String => YamlOutcome.raises) "a" = .raises ∧
      parseAgentFile (fun _ => .raises) "st" "st.md" "---\na\n---\nb" =
        some ⟨.pyStr "st", descriptionOf [] "b", "st.md", .pyStr "unknown",
          .pyList [], .pyNone, .pyNone, some "---\na\n---\nb"⟩) :=
  ⟨⟨rfl, (parse_agent_file_degrades (fun _ => .raises) "st" "st.md" "hello" "" "").1 rfl⟩,
    ⟨rfl, rfl,
      (parse_agent_file_degrades (fun _ => .raises) "st" "st.md" "---\na\n---\nb" "a" "b").2
        rfl rfl⟩⟩

/-- C9, amended: only the comma-separated string form of the tools field
is normalized to trimmed non-empty strings; a native list is passed
through verbatim by both parsers (and any other type becomes the empty
list). -/
theorem tools_field_normalization (yaml : String → YamlOutcome)
    (stem filePath parentName content fm body : String)
    (es : List (String × PyVal)) :
    (∀ s, fmSplit content = some (fm, body) →
      yaml fm = .returns (.pyDict es) →
      dictGet es "tools" (.pyStr "") = .pyStr s →
      (parseAgentFile yaml stem filePath content).map EAgent.tools =
        some (.pyList ((((pySplitChar ',' s).map pyStrip).filter
          (fun t => t ≠ "")).map .pyStr))) ∧
    (∀ xs, fmSplit content = some (fm, body) →
      yaml fm = .returns (.pyDict es) →
      dictGet es "tools" (.pyStr "") = .pyList xs →
      (parseAgentFile yaml stem filePath content).map EAgent.tools =
        some (.pyList xs)) ∧
    (∀ s, fmSplit content = some (fm, body) →
      yaml fm = .returns (.pyDict es) →
      dictGet es "allowed-tools" (.pyStr "") = .pyStr s →
      (parseSkillMd yaml parentName content).map SkillMeta.allowedTools =
        some (.pyList ((((pySplitChar ',' s).map pyStrip).filter
          (fun t => t ≠ "")).map .pyStr))) ∧
    (∀ xs, fmSplit content = some (fm, body) →
      yaml fm = .returns (.pyDict es) →
      dictGet es "allowed-tools" (.pyStr "") = .pyList xs →
      (parseSkillMd yaml parentName content).map SkillMeta.allowedTools =
        some (.pyList xs)) := by
  have hload : ∀ es : List (String × PyVal),
      (if pyTruthy (.pyDict es) then PyVal.pyDict es else .pyDict []) = .pyDict es := by
    intro es
    cases es with
    | nil => rfl
    | cons e es => rfl
  refine ⟨?_, ?_, ?_, ?_⟩ <;> intro v h hy hv <;>
    [skip; skip; skip; skip] <;>
    simp only [parseAgentFile, parseSkillMd, h, hy, hload, hv, toolsOf, allowedToolsOf,
      Option.map_some'] <;> rfl

/-- Witness for C9: a comma-separated string field is trimmed and
filtered; a native list field is passed through. -/
theorem tools_field_normalization_witness :
    (fmSplit "---\nx\n---\nb" = some ("x", "b") ∧
      (fun _ : String => YamlOutcome.returns (.pyDict [("tools", PyVal.pyStr " a, ,b ")])) "x" =
        .returns (.pyDict [("tools", .pyStr " a, ,b ")]) ∧
      dictGet [("tools", PyVal.pyStr " a, ,b ")] "tools" (.pyStr "") = .pyStr " a, ,b " ∧
      (parseAgentFile (fun _ => .returns (.pyDict [("tools", PyVal.pyStr " a, ,b ")]))
          "s" "s.md" "---\nx\n---\nb").map EAgent.tools =
        some (.pyList [.pyStr "a", .pyStr "b"])) ∧
    (dictGet [("tools", PyVal.pyList [PyVal.pyStr " a "])] "tools" (.pyStr "") =
        .pyList [.pyStr " a "] ∧
      (parseAgentFile (fun _ => .returns (.pyDict [("tools", PyVal.pyList [PyVal.pyStr " a "])]))
          "s" "s.md" "---\nx\n---\nb").map EAgent.tools =
        some (.pyList [.pyStr " a "])) :=
  ⟨⟨rfl, rfl, rfl,
      (tools_field_normalization (fun _ => .returns (.pyDict [("tools", PyVal.pyStr " a, ,b ")]))
        "s" "s.md" "p" "---\nx\n---\nb" "x" "b" [("tools", PyVal.pyStr " a, ,b ")]).1
        " a, ,b " rfl rfl rfl⟩,
    ⟨rfl,
      (tools_field_normalization
        (fun _ => .returns (.pyDict [("tools", PyVal.pyList [PyVal.pyStr " a "])]))
        "s" "s.md" "p" "---\nx\n---\nb" "x" "b" [("tools", PyVal.pyList [PyVal.pyStr " a "])]).2.1
        [PyVal.pyStr " a "] rfl rfl rfl⟩⟩

/-- Counterexample for C9 as stated: a native-list tools field keeps its
elements verbatim, including untrimmed and empty entries, so the field is
not normalized to trimmed non-empty strings in the list form. -/
theorem tools_list_not_normalized_counterexample :
    (parseAgentFile
        (fun _ => .returns (.pyDict [("tools", .pyList [.pyStr " a ", .pyStr ""])]))
        "s" "s.md" "---\nx\n---\nb").map EAgent.tools =
      some (.pyList [.pyStr " a ", .pyStr ""]) ∧
    pyStrip " a " = "a" ∧ (" a " : String) ≠ "a" ∧ ("" : String).length = 0 := by
  refine ⟨rfl, by decide, by decide, rfl⟩

/-- Membership in a b2j entry gives the position bound and the element
equation. -/
theorem b2jList_mem {b : List String} {x : String} {j : Nat} (h : j ∈ b2jList b x) :
    j < b.length ∧ b.getD j "" = x := by
  simp only [b2jList] at h
  split at h
  · simp at h
  · simp only [List.mem_filter, List.mem_range, decide_eq_true_eq] at h
    exact h

/-- Membership in the columns of one row. -/
theorem flmCols_mem {b : List String} {x : String} {blo bhi j : Nat}
    (h : j ∈ flmCols b x blo bhi) :
    blo ≤ j ∧ j < bhi ∧ j < b.length ∧ b.getD j "" = x := by
  unfold flmCols at h
  rw [List.mem_filter] at h
  have h2 := b2jList_mem h.1
  have h3 := h.2
  simp only [decide_eq_true_eq] at h3
  exact ⟨h3.1, h3.2, h2.1, h2.2⟩

/-- Soundness of the chain value computed at one column of one row of the
find_longest_match dynamic program. -/
theorem chainStep_sound (a b : List String) (alo blo bhi i : Nat) (prev : Nat → Nat)
    (hprev : ∀ j, prev j ≠ 0 → blo ≤ j ∧ j < bhi ∧ prev j ≤ j + 1 - blo ∧
      prev j ≤ i - alo ∧
      ∀ t < prev j, a.getD (i - prev j + t) "" = b.getD (j + 1 - prev j + t) "")
    (hi : alo ≤ i) (j : Nat) (hj : j ∈ flmCols b (a.getD i "") blo bhi) :
    1 ≤ chainStep prev j ∧ blo ≤ j ∧ j < bhi ∧
      chainStep prev j ≤ j + 1 - blo ∧ chainStep prev j ≤ i + 1 - alo ∧
      ∀ t < chainStep prev j,
        a.getD (i + 1 - chainStep prev j + t) "" =
          b.getD (j + 1 - chainStep prev j + t) "" := by
  have hcol := flmCols_mem hj
  unfold chainStep
  by_cases h0 : (if j = 0 then 0 else prev (j - 1)) = 0
  · rw [h0]
    refine ⟨by omega, hcol.1, hcol.2.1, by omega, by omega, ?_⟩
    intro t ht
    have ht0 : t = 0 := by omega
    subst ht0
    have : i + 1 - 1 + 0 = i := by omega
    rw [this]
    have : j + 1 - 1 + 0 = j := by omega
    rw [this]
    exact hcol.2.2.2.symm
  · have hjne : j ≠ 0 := by
      intro hj0
      rw [hj0] at h0
      simp at h0
    rw [if_neg hjne] at h0 ⊢
    have hp := hprev (j - 1) h0
    refine ⟨by omega, hcol.1, hcol.2.1, by omega, by omega, ?_⟩
    intro t ht
    by_cases htlast : t = prev (j - 1)
    · subst htlast
      have e1 : i + 1 - (prev (j - 1) + 1) + prev (j - 1) = i := by omega
      have e2 : j + 1 - (prev (j - 1) + 1) + prev (j - 1) = j := by omega
      rw [e1, e2]
      exact hcol.2.2.2.symm
    · have htlt : t < prev (j - 1) := by omega
      have := hp.2.2.2.2 t htlt
      have e1 : i + 1 - (prev (j - 1) + 1) + t = i - prev (j - 1) + t := by omega
      have e2 : j + 1 - (prev (j - 1) + 1) + t = j - 1 + 1 - prev (j - 1) + t := by omega
      rw [e1, e2]
      exact this

/-- The best-match accumulator of one row stays sound. -/
theorem flmRowBest_sound (a b : List String) (alo ahi blo bhi i : Nat) (prev : Nat → Nat)
    (hprev : ∀ j, prev j ≠ 0 → blo ≤ j ∧ j < bhi ∧ prev j ≤ j + 1 - blo ∧
      prev j ≤ i - alo ∧
      ∀ t < prev j, a.getD (i - prev j + t) "" = b.getD (j + 1 - prev j + t) "")
    (hlo : alo ≤ i) (hup : i < ahi) :
    ∀ (js : List Nat) (bst : DMatch),
      (∀ j ∈ js, j ∈ flmCols b (a.getD i "") blo bhi) →
      BlockSound a b alo ahi blo bhi bst →
      BlockSound a b alo ahi blo bhi (flmRowBest i prev js bst)
  | [], bst, _, hb => hb
  | j :: js, bst, hjs, hb => by
    have hj := hjs j (List.mem_cons_self j js)
    have hcs := chainStep_sound a b alo blo bhi i prev hprev hlo j hj
    show BlockSound a b alo ahi blo bhi
      (flmRowBest i prev js
        (if chainStep prev j > bst.size then ⟨i + 1 - chainStep prev j, j + 1 - chainStep prev j, chainStep prev j⟩ else bst))
    apply flmRowBest_sound a b alo ahi blo bhi i prev hprev hlo hup js _
      (fun j2 hj2 => hjs j2 (List.mem_cons_of_mem j hj2))
    by_cases hgt : chainStep prev j > bst.size
    · rw [if_pos hgt]
      refine ⟨?_, ?_, ?_, ?_, ?_⟩
      · show alo ≤ i + 1 - chainStep prev j
        omega
      · show blo ≤ j + 1 - chainStep prev j
        omega
      · show i + 1 - chainStep prev j + chainStep prev j ≤ ahi
        omega
      · show j + 1 - chainStep prev j + chainStep prev j ≤ bhi
        omega
      · intro t ht
        exact hcs.2.2.2.2.2 t ht
    · rw [if_neg hgt]
      exact hb

/-- The row fold of find_longest_match maintains map and best
soundness. -/
theorem flmFold_sound (a b : List String) (alo ahi blo bhi : Nat) :
    ∀ (k i0 : Nat) (st : (Nat → Nat) × DMatch),
      alo ≤ i0 → i0 + k ≤ ahi →
      (∀ j, st.1 j ≠ 0 → blo ≤ j ∧ j < bhi ∧ st.1 j ≤ j + 1 - blo ∧
        st.1 j ≤ i0 - alo ∧
        ∀ t < st.1 j, a.getD (i0 - st.1 j + t) "" = b.getD (j + 1 - st.1 j + t) "") →
      BlockSound a b alo ahi blo bhi st.2 →
      BlockSound a b alo ahi blo bhi
        ((List.range' i0 k).foldl
          (fun (st : (Nat → Nat) × DMatch) i =>
            (flmRowMap st.1 (flmCols b (a.getD i "") blo bhi),
             flmRowBest i st.1 (flmCols b (a.getD i "") blo bhi) st.2)) st).2 := by
  intro k
  induction k with
  | zero => intro i0 st _ _ _ hb; exact hb
  | succ k ih =>
    intro i0 st hlo hup hmap hb
    rw [List.range'_succ, List.foldl_cons]
    apply ih (i0 + 1)
    · omega
    · omega
    · intro j hj
      simp only [flmRowMap] at hj ⊢
      by_cases hmem : j ∈ flmCols b (a.getD i0 "") blo bhi
      · rw [if_pos hmem] at hj ⊢
        have hcs := chainStep_sound a b alo blo bhi i0 st.1 hmap hlo j hmem
        refine ⟨hcs.2.1, hcs.2.2.1, hcs.2.2.2.1, ?_, ?_⟩
        · have := hcs.2.2.2.2.1
          omega
        · intro t ht
          have e : i0 + 1 - chainStep st.1 j + t = i0 + 1 - chainStep st.1 j + t := rfl
          exact hcs.2.2.2.2.2 t ht
      · rw [if_neg hmem] at hj
        exact absurd rfl hj
    · exact flmRowBest_sound a b alo ahi blo bhi i0 st.1 hmap hlo (by omega)
        (flmCols b (a.getD i0 "") blo bhi) st.2 (fun _ h => h) hb

/-- The dynamic-programming part of find_longest_match returns a sound
match. -/
theorem flmDict_sound (a b : List String) (alo ahi blo bhi : Nat)
    (h1 : alo ≤ ahi) (h2 : blo ≤ bhi) :
    BlockSound a b alo ahi blo bhi (flmDict a b alo ahi blo bhi) := by
  unfold flmDict
  apply flmFold_sound a b alo ahi blo bhi (ahi - alo) alo
    (fun _ => 0, ⟨alo, blo, 0⟩) (Nat.le_refl alo) (by omega)
  · intro j hj
    exact absurd rfl hj
  · refine ⟨Nat.le_refl alo, Nat.le_refl blo, by simpa using h1, by simpa using h2, ?_⟩
    intro t ht
    exact absurd ht (by simp)

/-- The lower extension loop preserves soundness. -/
theorem extendLower_sound (a b : List String) (alo blo : Nat) (ahi bhi : Nat) :
    ∀ (fuel : Nat) (m : DMatch), BlockSound a b alo ahi blo bhi m →
      BlockSound a b alo ahi blo bhi (extendLower a b alo blo fuel m)
  | 0, m, hm => hm
  | fuel + 1, m, hm => by
    unfold extendLower
    split
    · next hcond =>
      apply extendLower_sound a b alo blo ahi bhi fuel
      obtain ⟨hm1, hm2, hm3, hm4, hm5⟩ := hm
      obtain ⟨hc1, hc2, hc3⟩ := hcond
      refine ⟨?_, ?_, ?_, ?_, ?_⟩
      · show alo ≤ m.i - 1
        omega
      · show blo ≤ m.j - 1
        omega
      · show m.i - 1 + (m.size + 1) ≤ ahi
        omega
      · show m.j - 1 + (m.size + 1) ≤ bhi
        omega
      · intro t ht
        have ht2 : t < m.size + 1 := ht
        show a.getD (m.i - 1 + t) "" = b.getD (m.j - 1 + t) ""
        rcases Nat.eq_zero_or_pos t with rfl | hpos
        · simpa using hc3
        · have := hm5 (t - 1) (by omega)
          have e1 : m.i - 1 + t = m.i + (t - 1) := by omega
          have e2 : m.j - 1 + t = m.j + (t - 1) := by omega
          rw [e1, e2]
          exact this
    · exact hm

/-- The upper extension loop preserves soundness. -/
theorem extendUpper_sound (a b : List String) (ahi bhi : Nat) (alo blo : Nat) :
    ∀ (fuel : Nat) (m : DMatch), BlockSound a b alo ahi blo bhi m →
      BlockSound a b alo ahi blo bhi (extendUpper a b ahi bhi fuel m)
  | 0, m, hm => hm
  | fuel + 1, m, hm => by
    unfold extendUpper
    split
    · next hcond =>
      apply extendUpper_sound a b ahi bhi alo blo fuel
      obtain ⟨hm1, hm2, hm3, hm4, hm5⟩ := hm
      obtain ⟨hc1, hc2, hc3⟩ := hcond
      refine ⟨hm1, hm2, ?_, ?_, ?_⟩
      · show m.i + (m.size + 1) ≤ ahi
        omega
      · show m.j + (m.size + 1) ≤ bhi
        omega
      · intro t ht
        have ht2 : t < m.size + 1 := ht
        show a.getD (m.i + t) "" = b.getD (m.j + t) ""
        by_cases hlast : t = m.size
        · subst hlast
          exact hc3
        · exact hm5 t (by omega)
    · exact hm

/-- find_longest_match returns a sound match for its window. -/
theorem findLongestMatch_sound (a b : List String) (alo ahi blo bhi : Nat)
    (h1 : alo ≤ ahi) (h2 : blo ≤ bhi) :
    BlockSound a b alo ahi blo bhi (findLongestMatch a b alo ahi blo bhi) := by
  unfold findLongestMatch
  apply extendUpper_sound
  apply extendLower_sound
  exact flmDict_sound a b alo ahi blo bhi h1 h2
/-- A chain may start at an earlier bound. -/
theorem Chained.mono_lo {a b : List String} :
    ∀ (ms : List DMatch) (lo lo2 hi : Nat × Nat),
      lo2.1 ≤ lo.1 → lo2.2 ≤ lo.2 → Chained a b lo ms hi → Chained a b lo2 ms hi
  | [], lo, lo2, hi, h1, h2, h => by
    obtain ⟨ha, hb⟩ := h
    exact ⟨Nat.le_trans h1 ha, Nat.le_trans h2 hb⟩
  | m :: ms, lo, lo2, hi, h1, h2, h => by
    obtain ⟨ha, hb, hc, hd⟩ := h
    exact ⟨Nat.le_trans h1 ha, Nat.le_trans h2 hb, hc, hd⟩

/-- Chains concatenate through a shared middle bound. -/
theorem Chained.append {a b : List String} :
    ∀ (ms1 ms2 : List DMatch) (lo mid hi : Nat × Nat),
      Chained a b lo ms1 mid → Chained a b mid ms2 hi →
      Chained a b lo (ms1 ++ ms2) hi
  | [], ms2, lo, mid, hi, h1, h2 => by
    obtain ⟨ha, hb⟩ := h1
    exact Chained.mono_lo ms2 mid lo hi ha hb h2
  | m :: ms1, ms2, lo, mid, hi, h1, h2 => by
    obtain ⟨ha, hb, hc, hd⟩ := h1
    exact ⟨ha, hb, hc, Chained.append ms1 ms2 _ mid hi hd h2⟩

/-- The recursive block collection is a chain within its window. -/
theorem mblocksAux_chained (a b : List String) :
    ∀ (fuel alo ahi blo bhi : Nat),
      (ahi - alo) + (bhi - blo) < fuel → alo ≤ ahi → blo ≤ bhi →
      Chained a b (alo, blo) (mblocksAux a b fuel alo ahi blo bhi) (ahi, bhi) := by
  intro fuel
  induction fuel with
  | zero =>
    intro alo ahi blo bhi hfuel
    exact absurd hfuel (Nat.not_lt_zero _)
  | succ fuel ih =>
    intro alo ahi blo bhi hfuel h1 h2
    simp only [mblocksAux]
    set m := findLongestMatch a b alo ahi blo bhi with hm
    have hs := findLongestMatch_sound a b alo ahi blo bhi h1 h2
    rw [← hm] at hs
    obtain ⟨hs1, hs2, hs3, hs4, hs5⟩ := hs
    by_cases hz : m.size = 0
    · rw [if_pos hz]
      exact ⟨h1, h2⟩
    · rw [if_neg hz]
      have hmid1 : Chained a b (alo, blo)
          (if alo < m.i ∧ blo < m.j then mblocksAux a b fuel alo m.i blo m.j else [])
          (m.i, m.j) := by
        split
        · next hg => exact ih alo m.i blo m.j (by omega) (by omega) (by omega)
        · exact ⟨hs1, hs2⟩
      have hmid2 : Chained a b (m.i, m.j) [m] (m.i + m.size, m.j + m.size) :=
        ⟨Nat.le_refl _, Nat.le_refl _, hs5, Nat.le_refl _, Nat.le_refl _⟩
      have hmid3 : Chained a b (m.i + m.size, m.j + m.size)
          (if m.i + m.size < ahi ∧ m.j + m.size < bhi then
            mblocksAux a b fuel (m.i + m.size) ahi (m.j + m.size) bhi
          else [])
          (ahi, bhi) := by
        split
        · next hg =>
          exact ih (m.i + m.size) ahi (m.j + m.size) bhi (by omega) (by omega) (by omega)
        · exact ⟨hs3, hs4⟩
      exact Chained.append _ _ _ _ _ (Chained.append _ _ _ _ _ hmid1 hmid2) hmid3

/-- Collapsing adjacent blocks preserves the chain. -/
theorem mergeAdjacentAux_chained {a b : List String} :
    ∀ (ms : List DMatch) (cur : DMatch) (hi : Nat × Nat),
      MatchAt a b cur →
      Chained a b (cur.i + cur.size, cur.j + cur.size) ms hi →
      Chained a b (cur.i, cur.j) (mergeAdjacentAux cur ms) hi
  | [], cur, hi, hcur, hch => by
    unfold mergeAdjacentAux
    split
    · exact ⟨Nat.le_refl _, Nat.le_refl _, hcur, hch⟩
    · next hc =>
      have hz : cur.size = 0 := of_not_not hc
      obtain ⟨ha, hb⟩ := hch
      have ha2 : cur.i + cur.size ≤ hi.1 := ha
      have hb2 : cur.j + cur.size ≤ hi.2 := hb
      refine ⟨?_, ?_⟩
      · show cur.i ≤ hi.1
        omega
      · show cur.j ≤ hi.2
        omega
  | bl :: ms, cur, hi, hcur, hch => by
    unfold mergeAdjacentAux
    obtain ⟨hb1, hb2, hb3, hb4⟩ := hch
    have hb1a : cur.i + cur.size ≤ bl.i := hb1
    have hb2a : cur.j + cur.size ≤ bl.j := hb2
    split
    · next heq =>
      have he1 : cur.i + cur.size = bl.i := heq.1
      have he2 : cur.j + cur.size = bl.j := heq.2
      have hcur2 : MatchAt a b ⟨cur.i, cur.j, cur.size + bl.size⟩ := by
        intro t ht
        have ht2 : t < cur.size + bl.size := ht
        show a.getD (cur.i + t) "" = b.getD (cur.j + t) ""
        by_cases hlt : t < cur.size
        · exact hcur t hlt
        · have e1 : cur.i + t = bl.i + (t - cur.size) := by omega
          have e2 : cur.j + t = bl.j + (t - cur.size) := by omega
          rw [e1, e2]
          exact hb3 (t - cur.size) (by omega)
      have hch2 : Chained a b (cur.i + (cur.size + bl.size), cur.j + (cur.size + bl.size))
          ms hi := by
        have e1 : cur.i + (cur.size + bl.size) = bl.i + bl.size := by omega
        have e2 : cur.j + (cur.size + bl.size) = bl.j + bl.size := by omega
        rw [e1, e2]
        exact hb4
      exact mergeAdjacentAux_chained ms ⟨cur.i, cur.j, cur.size + bl.size⟩ hi hcur2 hch2
    · next hne =>
      have hrest := mergeAdjacentAux_chained ms bl hi hb3 hb4
      split
      · exact ⟨Nat.le_refl _, Nat.le_refl _, hcur,
          Chained.mono_lo _ _ _ _ hb1a hb2a hrest⟩
      · next hc =>
        have hz : cur.size = 0 := of_not_not hc
        have hle1 : cur.i ≤ bl.i := by omega
        have hle2 : cur.j ≤ bl.j := by omega
        exact Chained.mono_lo _ _ _ _ hle1 hle2 hrest

/-- Appending the sentinel block keeps a chain ending at the sentinel
position. -/
theorem chained_append_sentinel {a b : List String} :
    ∀ (ms : List DMatch) (lo hi : Nat × Nat),
      Chained a b lo ms hi →
      Chained a b lo (ms ++ [⟨hi.1, hi.2, 0⟩]) hi
  | [], lo, hi, h => by
    obtain ⟨h1, h2⟩ := h
    exact ⟨h1, h2, fun t ht => absurd ht (Nat.not_lt_zero t), Nat.le_refl _, Nat.le_refl _⟩
  | m :: ms, lo, hi, h => by
    obtain ⟨h1, h2, h3, h4⟩ := h
    exact ⟨h1, h2, h3, chained_append_sentinel ms _ hi h4⟩

/-- get_matching_blocks is a chain from the origin to the sentinel. -/
theorem getMatchingBlocks_chained (a b : List String) :
    Chained a b (0, 0) (getMatchingBlocks a b) (a.length, b.length) := by
  unfold getMatchingBlocks
  have h := mergeAdjacentAux_chained
    (mblocksAux a b (a.length + b.length + 1) 0 a.length 0 b.length) ⟨0, 0, 0⟩
    (a.length, b.length)
    (fun t ht => absurd ht (Nat.not_lt_zero t))
    (mblocksAux_chained a b (a.length + b.length + 1) 0 a.length 0 b.length
      (by omega) (Nat.zero_le _) (Nat.zero_le _))
  exact chained_append_sentinel _ _ (a.length, b.length) h

/-- The last element of get_matching_blocks is the sentinel. -/
theorem getMatchingBlocks_getLast (a b : List String) :
    (getMatchingBlocks a b).getLast? = some ⟨a.length, b.length, 0⟩ := by
  unfold getMatchingBlocks
  exact List.getLast?_concat _

/-- The opcode walk over a chained block list yields a contiguous opcode
chain, provided the last block ends exactly at the upper bound. -/
theorem opcodesAux_chain {a b : List String} :
    ∀ (ms : List DMatch) (i j : Nat) (hi : Nat × Nat),
      Chained a b (i, j) ms hi →
      (match ms.getLast? with
       | some mm => mm.i + mm.size = hi.1 ∧ mm.j + mm.size = hi.2
       | none => i = hi.1 ∧ j = hi.2) →
      OpsChain a b (i, j) (opcodesAux i j ms) hi
  | [], i, j, hi, _, hlast => by
    obtain ⟨h1, h2⟩ : i = hi.1 ∧ j = hi.2 := hlast
    show (i, j) = hi
    rw [h1, h2]
  | m :: ms, i, j, hi, hch, hlast => by
    obtain ⟨hc1, hc2, hc3, hc4⟩ := hch
    have hc1a : i ≤ m.i := hc1
    have hc2a : j ≤ m.j := hc2
    have hlast2 : (match ms.getLast? with
        | some mm => mm.i + mm.size = hi.1 ∧ mm.j + mm.size = hi.2
        | none => m.i + m.size = hi.1 ∧ m.j + m.size = hi.2) := by
      cases ms with
      | nil => exact hlast
      | cons x xs =>
        rw [List.getLast?_cons_cons] at hlast
        exact hlast
    have hrest := opcodesAux_chain ms (m.i + m.size) (m.j + m.size) hi hc4 hlast2
    simp only [opcodesAux]
    have heqop : OpsChain a b (m.i, m.j)
        ((if m.size ≠ 0 then [⟨DTag.equal, m.i, m.i + m.size, m.j, m.j + m.size⟩]
          else []) ++
          opcodesAux (m.i + m.size) (m.j + m.size) ms) hi := by
      by_cases hz : m.size = 0
      · rw [if_neg (fun hk => hk hz), List.nil_append]
        have e1 : m.i + m.size = m.i := by omega
        have e2 : m.j + m.size = m.j := by omega
        rw [e1, e2] at hrest ⊢
        exact hrest
      · rw [if_pos hz]
        refine ⟨rfl, rfl, ?_, ?_, ?_, hrest⟩
        · show m.i ≤ m.i + m.size
          omega
        · show m.j ≤ m.j + m.size
          omega
        · intro _
          refine ⟨?_, ?_⟩
          · show m.i + m.size - m.i = m.j + m.size - m.j
            omega
          · intro t ht
            have ht2 : t < m.i + m.size - m.i := ht
            show a.getD (m.i + t) "" = b.getD (m.j + t) ""
            exact hc3 t (by omega)
    by_cases hr : i < m.i ∧ j < m.j
    · rw [if_pos hr]
      refine ⟨rfl, rfl, ?_, ?_, ?_, heqop⟩
      · show i ≤ m.i
        omega
      · show j ≤ m.j
        omega
      · intro htag
        have htag2 : DTag.replace = DTag.equal := htag
        exact absurd htag2 (by decide)
    · rw [if_neg hr]
      by_cases hd : i < m.i
      · rw [if_pos hd]
        refine ⟨rfl, rfl, ?_, ?_, ?_, heqop⟩
        · show i ≤ m.i
          omega
        · show j ≤ m.j
          exact hc2a
        · intro htag
          have htag2 : DTag.delete = DTag.equal := htag
          exact absurd htag2 (by decide)
      · rw [if_neg hd]
        by_cases hins : j < m.j
        · rw [if_pos hins]
          refine ⟨rfl, rfl, ?_, ?_, ?_, heqop⟩
          · show i ≤ m.i
            exact hc1a
          · show j ≤ m.j
            omega
          · intro htag
            have htag2 : DTag.insert = DTag.equal := htag
            exact absurd htag2 (by decide)
        · rw [if_neg hins, List.nil_append]
          have him : i = m.i := by omega
          have hjm : j = m.j := by omega
          rw [him, hjm]
          exact heqop

/-- get_opcodes is a contiguous opcode chain from the origin to the two
lengths. -/
theorem getOpcodes_chain (a b : List String) :
    OpsChain a b (0, 0) (getOpcodes a b) (a.length, b.length) := by
  unfold getOpcodes
  apply opcodesAux_chain _ _ _ _ (getMatchingBlocks_chained a b)
  rw [getMatchingBlocks_getLast]
  exact ⟨rfl, rfl⟩

/-- An opcode chain is monotone in both coordinates. -/
theorem opsChain_le {a b : List String} :
    ∀ (ops : List Opcode) (lo hi : Nat × Nat),
      OpsChain a b lo ops hi → lo.1 ≤ hi.1 ∧ lo.2 ≤ hi.2
  | [], lo, hi, h => by
    obtain rfl : lo = hi := h
    exact ⟨Nat.le_refl _, Nat.le_refl _⟩
  | c :: ops, lo, hi, h => by
    obtain ⟨h1, h2, h3, h4, h5, h6⟩ := h
    have h1a : c.i1 = lo.1 := h1
    have h2a : c.j1 = lo.2 := h2
    have hr := opsChain_le ops (c.i2, c.j2) hi h6
    have hr1 : c.i2 ≤ hi.1 := hr.1
    have hr2 : c.j2 ≤ hi.2 := hr.2
    exact ⟨by omega, by omega⟩

/-- Pointwise equal windows yield equal slices. -/
theorem sliceList_eq_of_pointwise (a b : List String) (i1 j1 k : Nat)
    (ha : i1 + k ≤ a.length) (hb : j1 + k ≤ b.length)
    (hpt : ∀ t < k, a.getD (i1 + t) "" = b.getD (j1 + t) "") :
    sliceList a i1 (i1 + k) = sliceList b j1 (j1 + k) := by
  apply List.ext_getElem?
  intro n
  simp only [sliceList]
  rw [List.getElem?_take, List.getElem?_take]
  have e1 : i1 + k - i1 = k := by omega
  have e2 : j1 + k - j1 = k := by omega
  rw [e1, e2]
  by_cases hn : n < k
  · rw [if_pos hn, if_pos hn, List.getElem?_drop, List.getElem?_drop]
    have hia : i1 + n < a.length := by omega
    have hjb : j1 + n < b.length := by omega
    rw [List.getElem?_eq_getElem hia, List.getElem?_eq_getElem hjb]
    have hx := hpt n hn
    rw [List.getD_eq_getElem?_getD, List.getD_eq_getElem?_getD,
      List.getElem?_eq_getElem hia, List.getElem?_eq_getElem hjb] at hx
    simp only [Option.getD_some] at hx
    rw [hx]
  · rw [if_neg hn, if_neg hn]

/-- Crossing an equal opcode leaves the merged prefix-suffix split
unchanged. -/
theorem equal_slide (a b : List String) (i1 i2 j1 j2 : Nat)
    (h12 : i1 ≤ i2) (hj12 : j1 ≤ j2) (ha : i2 ≤ a.length) (hb : j2 ≤ b.length)
    (hsz : i2 - i1 = j2 - j1)
    (hpt : ∀ t < i2 - i1, a.getD (i1 + t) "" = b.getD (j1 + t) "") :
    b.take j2 ++ a.drop i2 = b.take j1 ++ a.drop i1 := by
  obtain ⟨k, rfl, rfl⟩ : ∃ k, i2 = i1 + k ∧ j2 = j1 + k := ⟨i2 - i1, by omega, by omega⟩
  have hpt2 : ∀ t < k, a.getD (i1 + t) "" = b.getD (j1 + t) "" := by
    intro t ht
    exact hpt t (by omega)
  have hslice := sliceList_eq_of_pointwise a b i1 j1 k (by omega) (by omega) hpt2
  simp only [sliceList] at hslice
  have e1 : i1 + k - i1 = k := by omega
  have e2 : j1 + k - j1 = k := by omega
  rw [e1, e2] at hslice
  rw [List.take_add, List.append_assoc]
  apply congrArg
  calc (b.drop j1).take k ++ a.drop (i1 + k)
      = (a.drop i1).take k ++ (a.drop i1).drop k := by
        rw [← hslice, List.drop_drop]
    _ = a.drop i1 := List.take_append_drop k (a.drop i1)

/-- Slices have the expected length when the window is in range. -/
theorem sliceList_length (l : List String) (i j : Nat) (h : j ≤ l.length) :
    (sliceList l i j).length = j - i := by
  simp only [sliceList]
  rw [List.length_take, List.length_drop]
  omega

/-- Python slice assignment with in-range non-negative bounds is
take-splice-drop. -/
theorem pySliceAssign_eq {α : Type} (l x : List α) (s e : Nat) (hs : s ≤ l.length)
    (he : e ≤ l.length) (hse : s ≤ e) :
    pySliceAssign l (s : Int) (e : Int) x = l.take s ++ x ++ l.drop e := by
  simp only [pySliceAssign]
  have h1 : ¬ ((s : Int) < 0) := by omega
  have h2 : ¬ ((e : Int) < 0) := by omega
  rw [if_neg h1, if_neg h2, Int.toNat_ofNat, Int.toNat_ofNat,
    min_eq_left hs, min_eq_left he, max_eq_right hse]

/-- With every prompt answered keep, the merge loop returns its input. -/
theorem mergeBlocksLoop_keep :
    ∀ (blocks : List DiffBlock) (resultLines : List String) (offset : Int),
      mergeBlocksLoop (fun _ => MergeChoice.keep) blocks resultLines offset = resultLines
  | [], _, _ => rfl
  | _ :: rest, resultLines, offset =>
    mergeBlocksLoop_keep rest resultLines offset

/-- With every prompt answered replace, the merge loop rebuilds the
incoming line list: the running offset keeps every later slice assignment
aligned. -/
theorem mergeBlocksLoop_replace (a b : List String) :
    ∀ (ops : List Opcode) (ctx i j bn : Nat),
      OpsChain a b (i, j) ops (a.length, b.length) →
      mergeBlocksLoop (fun _ => MergeChoice.replace)
        (diffBlocksOf a b ctx ops bn) (b.take j ++ a.drop i)
        ((j : Int) - (i : Int)) = b
  | [], ctx, i, j, bn, h => by
    have h2 : (i, j) = (a.length, b.length) := h
    rw [Prod.mk.injEq] at h2
    obtain ⟨hi, hj⟩ := h2
    show b.take j ++ a.drop i = b
    rw [hi, hj, List.take_length, List.drop_length, List.append_nil]
  | c :: ops, ctx, i, j, bn, h => by
    obtain ⟨h1, h2, h3, h4, h5, h6⟩ := h
    have h1a : c.i1 = i := h1
    have h2a : c.j1 = j := h2
    have h3a : c.i1 ≤ c.i2 := h3
    have h4a : c.j1 ≤ c.j2 := h4
    have hle := opsChain_le ops (c.i2, c.j2) (a.length, b.length) h6
    have hle1 : c.i2 ≤ a.length := hle.1
    have hle2 : c.j2 ≤ b.length := hle.2
    have hrec := mergeBlocksLoop_replace a b ops ctx c.i2 c.j2 (bn + 1) h6
    have hrec0 := mergeBlocksLoop_replace a b ops ctx c.i2 c.j2 bn h6
    by_cases htag : c.tag = DTag.equal
    · obtain ⟨hsz, hpt⟩ := h5 htag
      have hskip : diffBlocksOf a b ctx (c :: ops) bn = diffBlocksOf a b ctx ops bn := by
        simp only [diffBlocksOf]
        rw [if_pos htag]
      have hslide : b.take c.j2 ++ a.drop c.i2 = b.take j ++ a.drop i := by
        rw [← h1a, ← h2a]
        exact equal_slide a b c.i1 c.i2 c.j1 c.j2 h3a h4a hle1 hle2 hsz hpt
      have hoff : (j : Int) - (i : Int) = (c.j2 : Int) - (c.i2 : Int) := by omega
      rw [hskip, ← hslide, hoff]
      exact hrec0
    · have hcons : diffBlocksOf a b ctx (c :: ops) bn =
          ⟨bn + 1, c.i1 + 1, c.i2, sliceList a c.i1 c.i2, sliceList b c.j1 c.j2,
            sliceList a (c.i1 - ctx) c.i1,
            sliceList a c.i2 (min a.length (c.i2 + ctx))⟩ ::
          diffBlocksOf a b ctx ops (bn + 1) := by
        simp only [diffBlocksOf]
        rw [if_neg htag]
      rw [hcons]
      simp only [mergeBlocksLoop]
      have hja : j ≤ b.length := by omega
      have hia : i ≤ a.length := by omega
      have hRlen : (b.take j ++ a.drop i).length = j + (a.length - i) := by
        rw [List.length_append, List.length_take, List.length_drop]
        omega
      have hstart : ((c.i1 + 1 : Nat) : Int) - 1 + ((j : Int) - (i : Int))
          = ((c.j1 : Nat) : Int) := by omega
      have hend : ((c.i2 : Nat) : Int) + ((j : Int) - (i : Int))
          = (((c.j1 + (c.i2 - c.i1)) : Nat) : Int) := by omega
      rw [hstart, hend,
        pySliceAssign_eq (b.take j ++ a.drop i) (sliceList b c.j1 c.j2)
          c.j1 (c.j1 + (c.i2 - c.i1)) (by omega) (by omega) (by omega)]
      have htakelen : (b.take j).length = j := by
        rw [List.length_take]
        omega
      have hRtake : (b.take j ++ a.drop i).take c.j1 = b.take c.j1 := by
        rw [h2a, List.take_left' htakelen]
      have hRdrop : (b.take j ++ a.drop i).drop (c.j1 + (c.i2 - c.i1))
          = a.drop c.i2 := by
        rw [h2a, ← List.drop_drop, List.drop_left' htakelen, List.drop_drop]
        have e3 : i + (c.i2 - c.i1) = c.i2 := by omega
        rw [e3]
      rw [hRtake, hRdrop]
      have hmerge : b.take c.j1 ++ sliceList b c.j1 c.j2 ++ a.drop c.i2
          = b.take c.j2 ++ a.drop c.i2 := by
        have e4 : c.j2 = c.j1 + (c.j2 - c.j1) := by omega
        simp only [sliceList]
        rw [← List.take_add]
        rw [← e4]
      rw [hmerge]
      have hlenb := sliceList_length b c.j1 c.j2 hle2
      have hlena := sliceList_length a c.i1 c.i2 hle1
      have hoff2 : (j : Int) - (i : Int) + ((sliceList b c.j1 c.j2).length : Int)
          - ((sliceList a c.i1 c.i2).length : Int)
          = ((c.j2 : Nat) : Int) - ((c.i2 : Nat) : Int) := by
        rw [hlenb, hlena]
        omega
      rw [hoff2]
      exact hrec

/-- C3: line_by_line_merge applies the non-equal diff blocks in ascending
document order with a running line offset, so each slice assignment stays
aligned after earlier blocks change line counts; consequently answering
replace for every block rebuilds the incoming line list and answering keep
for every block leaves the existing line list unchanged.  The returned
string, however, is the newline-join of that line list (except when there
are no differing blocks, where existing is returned verbatim), which
normalizes line terminators rather than reproducing the incoming or
existing text exactly. -/
theorem line_by_line_merge_applies_blocks (existing incoming : String) :
    lineByLineMerge existing incoming (fun _ => MergeChoice.replace)
      = (if (getDiffBlocks existing incoming).isEmpty then existing
         else String.intercalate "\n" (pySplitlines false incoming)) ∧
    lineByLineMerge existing incoming (fun _ => MergeChoice.keep)
      = (if (getDiffBlocks existing incoming).isEmpty then existing
         else String.intercalate "\n" (pySplitlines false existing)) := by
  constructor
  · simp only [lineByLineMerge]
    by_cases hemp : (getDiffBlocks existing incoming).isEmpty = true
    · rw [if_pos hemp, if_pos hemp]
    · rw [if_neg hemp, if_neg hemp]
      apply congrArg
      have h := mergeBlocksLoop_replace (pySplitlines false existing)
        (pySplitlines false incoming)
        (getOpcodes (pySplitlines false existing) (pySplitlines false incoming))
        2 0 0 0
        (getOpcodes_chain (pySplitlines false existing) (pySplitlines false incoming))
      exact h
  · simp only [lineByLineMerge]
    by_cases hemp : (getDiffBlocks existing incoming).isEmpty = true
    · rw [if_pos hemp, if_pos hemp]
    · rw [if_neg hemp, if_neg hemp]
      exact congrArg _ (mergeBlocksLoop_keep _ _ _)

/-- C3 counterexample: with texts "a\n" and "b\n" there is one differing
block; replacing it yields "b", not the incoming text "b\n", and keeping
it yields "a", not the existing text "a\n" (the final newline-join drops
the trailing line terminator). -/
theorem line_by_line_merge_counterexample :
    lineByLineMerge "a\n" "b\n" (fun _ => MergeChoice.replace) = "b" ∧
    lineByLineMerge "a\n" "b\n" (fun _ => MergeChoice.keep) = "a" ∧
    "b" ≠ "b\n" ∧ "a" ≠ "a\n" := by
  refine ⟨by decide, by decide, by decide, by decide⟩

/-- A rendered plus-line starts with a plus. -/
theorem pyStartsWith_plus_one (l : String) : pyStartsWith ("+" ++ l) "+" = true := by
  simp [pyStartsWith, String.data_append]

/-- A rendered plus-line starts with three pluses exactly when the line
itself starts with two. -/
theorem pyStartsWith_plus_three (l : String) :
    pyStartsWith ("+" ++ l) "+++" = pyStartsWith l "++" := by
  simp [pyStartsWith, String.data_append]

/-- A rendered minus-line starts with a minus. -/
theorem pyStartsWith_minus_one (l : String) : pyStartsWith ("-" ++ l) "-" = true := by
  simp [pyStartsWith, String.data_append]

/-- A rendered minus-line starts with three minuses exactly when the line
itself starts with two. -/
theorem pyStartsWith_minus_three (l : String) :
    pyStartsWith ("-" ++ l) "---" = pyStartsWith l "--" := by
  simp [pyStartsWith, String.data_append]

/-- A context line never starts with a plus. -/
theorem pyStartsWith_space_plus (l : String) : pyStartsWith (" " ++ l) "+" = false := by
  simp [pyStartsWith, String.data_append, List.isPrefixOf_cons₂]

/-- A context line never starts with a minus. -/
theorem pyStartsWith_space_minus (l : String) : pyStartsWith (" " ++ l) "-" = false := by
  simp [pyStartsWith, String.data_append, List.isPrefixOf_cons₂]

/-- A plus-line never starts with a minus. -/
theorem pyStartsWith_plus_minus (l : String) : pyStartsWith ("+" ++ l) "-" = false := by
  simp [pyStartsWith, String.data_append, List.isPrefixOf_cons₂]

/-- A minus-line never starts with a plus. -/
theorem pyStartsWith_minus_plus (l : String) : pyStartsWith ("-" ++ l) "+" = false := by
  simp [pyStartsWith, String.data_append, List.isPrefixOf_cons₂]

/-- A hunk header never starts with a plus. -/
theorem pyStartsWith_hunk_plus (x y : String) :
    pyStartsWith ("@@ -" ++ x ++ " +" ++ y ++ " @@") "+" = false := by
  simp [pyStartsWith, String.data_append, List.isPrefixOf_cons₂]

/-- A hunk header never starts with a minus. -/
theorem pyStartsWith_hunk_minus (x y : String) :
    pyStartsWith ("@@ -" ++ x ++ " +" ++ y ++ " @@") "-" = false := by
  simp [pyStartsWith, String.data_append, List.isPrefixOf_cons₂]

/-- Counted plus-lines of one rendered opcode are its inserted lines not
themselves starting with two pluses. -/
theorem renderOpcode_countAdd (a b : List String) (c : Opcode) :
    (renderOpcode a b c).countP (fun l => pyStartsWith l "+" ∧ ¬ pyStartsWith l "+++")
      = (opcodeAddedLines b c).countP (fun l => ¬ pyStartsWith l "++") := by
  obtain ⟨tag, i1, i2, j1, j2⟩ := c
  cases tag
  case equal =>
    rw [show renderOpcode a b ⟨DTag.equal, i1, i2, j1, j2⟩
        = (sliceList a i1 i2).map (fun l => " " ++ l) from rfl,
      show opcodeAddedLines b ⟨DTag.equal, i1, i2, j1, j2⟩ = [] from rfl,
      List.countP_map, List.countP_nil]
    refine List.countP_eq_zero.mpr ?_
    intro x hx
    simp [Function.comp, pyStartsWith_space_plus]
  case delete =>
    rw [show renderOpcode a b ⟨DTag.delete, i1, i2, j1, j2⟩
        = (sliceList a i1 i2).map (fun l => "-" ++ l) from rfl,
      show opcodeAddedLines b ⟨DTag.delete, i1, i2, j1, j2⟩ = [] from rfl,
      List.countP_map, List.countP_nil]
    refine List.countP_eq_zero.mpr ?_
    intro x hx
    simp [Function.comp, pyStartsWith_minus_plus]
  case insert =>
    rw [show renderOpcode a b ⟨DTag.insert, i1, i2, j1, j2⟩
        = (sliceList b j1 j2).map (fun l => "+" ++ l) from rfl,
      show opcodeAddedLines b ⟨DTag.insert, i1, i2, j1, j2⟩ = sliceList b j1 j2 from rfl,
      List.countP_map]
    refine List.countP_congr ?_
    intro x hx
    simp [Function.comp, pyStartsWith_plus_one, pyStartsWith_plus_three]
  case replace =>
    rw [show renderOpcode a b ⟨DTag.replace, i1, i2, j1, j2⟩
        = (sliceList a i1 i2).map (fun l => "-" ++ l) ++
          (sliceList b j1 j2).map (fun l => "+" ++ l) from rfl,
      show opcodeAddedLines b ⟨DTag.replace, i1, i2, j1, j2⟩ = sliceList b j1 j2 from rfl,
      List.countP_append, List.countP_map, List.countP_map]
    have hminus : ((sliceList a i1 i2).countP
        ((fun l => pyStartsWith l "+" ∧ ¬ pyStartsWith l "+++") ∘ (fun l => "-" ++ l))) = 0 := by
      refine List.countP_eq_zero.mpr ?_
      intro x hx
      simp [Function.comp, pyStartsWith_minus_plus]
    rw [hminus]
    have hplus : ((sliceList b j1 j2).countP
        ((fun l => pyStartsWith l "+" ∧ ¬ pyStartsWith l "+++") ∘ (fun l => "+" ++ l)))
        = (sliceList b j1 j2).countP (fun l => ¬ pyStartsWith l "++") := by
      refine List.countP_congr ?_
      intro x hx
      simp [Function.comp, pyStartsWith_plus_one, pyStartsWith_plus_three]
    rw [hplus]
    omega

/-- Counted minus-lines of one rendered opcode are its removed lines not
themselves starting with two minuses. -/
theorem renderOpcode_countRemove (a b : List String) (c : Opcode) :
    (renderOpcode a b c).countP (fun l => pyStartsWith l "-" ∧ ¬ pyStartsWith l "---")
      = (opcodeRemovedLines a c).countP (fun l => ¬ pyStartsWith l "--") := by
  obtain ⟨tag, i1, i2, j1, j2⟩ := c
  cases tag
  case equal =>
    rw [show renderOpcode a b ⟨DTag.equal, i1, i2, j1, j2⟩
        = (sliceList a i1 i2).map (fun l => " " ++ l) from rfl,
      show opcodeRemovedLines a ⟨DTag.equal, i1, i2, j1, j2⟩ = [] from rfl,
      List.countP_map, List.countP_nil]
    refine List.countP_eq_zero.mpr ?_
    intro x hx
    simp [Function.comp, pyStartsWith_space_minus]
  case insert =>
    rw [show renderOpcode a b ⟨DTag.insert, i1, i2, j1, j2⟩
        = (sliceList b j1 j2).map (fun l => "+" ++ l) from rfl,
      show opcodeRemovedLines a ⟨DTag.insert, i1, i2, j1, j2⟩ = [] from rfl,
      List.countP_map, List.countP_nil]
    refine List.countP_eq_zero.mpr ?_
    intro x hx
    simp [Function.comp, pyStartsWith_plus_minus]
  case delete =>
    rw [show renderOpcode a b ⟨DTag.delete, i1, i2, j1, j2⟩
        = (sliceList a i1 i2).map (fun l => "-" ++ l) from rfl,
      show opcodeRemovedLines a ⟨DTag.delete, i1, i2, j1, j2⟩ = sliceList a i1 i2 from rfl,
      List.countP_map]
    refine List.countP_congr ?_
    intro x hx
    simp [Function.comp, pyStartsWith_minus_one, pyStartsWith_minus_three]
  case replace =>
    rw [show renderOpcode a b ⟨DTag.replace, i1, i2, j1, j2⟩
        = (sliceList a i1 i2).map (fun l => "-" ++ l) ++
          (sliceList b j1 j2).map (fun l => "+" ++ l) from rfl,
      show opcodeRemovedLines a ⟨DTag.replace, i1, i2, j1, j2⟩ = sliceList a i1 i2 from rfl,
      List.countP_append, List.countP_map, List.countP_map]
    have hplus : ((sliceList b j1 j2).countP
        ((fun l => pyStartsWith l "-" ∧ ¬ pyStartsWith l "---") ∘ (fun l => "+" ++ l))) = 0 := by
      refine List.countP_eq_zero.mpr ?_
      intro x hx
      simp [Function.comp, pyStartsWith_plus_minus]
    rw [hplus]
    have hminus : ((sliceList a i1 i2).countP
        ((fun l => pyStartsWith l "-" ∧ ¬ pyStartsWith l "---") ∘ (fun l => "-" ++ l)))
        = (sliceList a i1 i2).countP (fun l => ¬ pyStartsWith l "--") := by
      refine List.countP_congr ?_
      intro x hx
      simp [Function.comp, pyStartsWith_minus_one, pyStartsWith_minus_three]
    rw [hminus]
    omega

/-- Counted plus-lines of a rendered opcode list. -/
theorem flattenRender_countAdd (a b : List String) :
    ∀ g : List Opcode,
      ((g.map (renderOpcode a b)).flatten).countP
          (fun l => pyStartsWith l "+" ∧ ¬ pyStartsWith l "+++")
        = ((g.map (opcodeAddedLines b)).flatten).countP (fun l => ¬ pyStartsWith l "++")
  | [] => rfl
  | c :: g => by
    rw [List.map_cons, List.map_cons, List.flatten_cons, List.flatten_cons,
      List.countP_append, List.countP_append,
      renderOpcode_countAdd a b c, flattenRender_countAdd a b g]

/-- Counted minus-lines of a rendered opcode list. -/
theorem flattenRender_countRemove (a b : List String) :
    ∀ g : List Opcode,
      ((g.map (renderOpcode a b)).flatten).countP
          (fun l => pyStartsWith l "-" ∧ ¬ pyStartsWith l "---")
        = ((g.map (opcodeRemovedLines a)).flatten).countP (fun l => ¬ pyStartsWith l "--")
  | [] => rfl
  | c :: g => by
    rw [List.map_cons, List.map_cons, List.flatten_cons, List.flatten_cons,
      List.countP_append, List.countP_append,
      renderOpcode_countRemove a b c, flattenRender_countRemove a b g]

/-- The hunk header contributes nothing to the plus count of a group. -/
theorem renderGroup_countAdd (a b : List String) (g : List Opcode) :
    (renderGroup a b g).countP (fun l => pyStartsWith l "+" ∧ ¬ pyStartsWith l "+++")
      = ((g.map (opcodeAddedLines b)).flatten).countP (fun l => ¬ pyStartsWith l "++") := by
  simp only [renderGroup]
  rw [List.countP_cons, flattenRender_countAdd a b g]
  simp [pyStartsWith_hunk_plus]

/-- The hunk header contributes nothing to the minus count of a group. -/
theorem renderGroup_countRemove (a b : List String) (g : List Opcode) :
    (renderGroup a b g).countP (fun l => pyStartsWith l "-" ∧ ¬ pyStartsWith l "---")
      = ((g.map (opcodeRemovedLines a)).flatten).countP (fun l => ¬ pyStartsWith l "--") := by
  simp only [renderGroup]
  rw [List.countP_cons, flattenRender_countRemove a b g]
  simp [pyStartsWith_hunk_minus]

/-- Plus count over all rendered groups equals the count over the
flattened opcodes. -/
theorem groups_countAdd (a b : List String) :
    ∀ gs : List (List Opcode),
      ((gs.map (renderGroup a b)).flatten).countP
          (fun l => pyStartsWith l "+" ∧ ¬ pyStartsWith l "+++")
        = (((gs.flatten).map (opcodeAddedLines b)).flatten).countP
            (fun l => ¬ pyStartsWith l "++")
  | [] => rfl
  | g :: gs => by
    rw [List.map_cons, List.flatten_cons, List.countP_append,
      renderGroup_countAdd a b g, groups_countAdd a b gs,
      List.flatten_cons, List.map_append, List.flatten_append, List.countP_append]

/-- Minus count over all rendered groups equals the count over the
flattened opcodes. -/
theorem groups_countRemove (a b : List String) :
    ∀ gs : List (List Opcode),
      ((gs.map (renderGroup a b)).flatten).countP
          (fun l => pyStartsWith l "-" ∧ ¬ pyStartsWith l "---")
        = (((gs.flatten).map (opcodeRemovedLines a)).flatten).countP
            (fun l => ¬ pyStartsWith l "--")
  | [] => rfl
  | g :: gs => by
    rw [List.map_cons, List.flatten_cons, List.countP_append,
      renderGroup_countRemove a b g, groups_countRemove a b gs,
      List.flatten_cons, List.map_append, List.flatten_append, List.countP_append]

/-- Equal opcodes add no inserted lines, so only the non-equal opcodes
matter. -/
theorem flatten_added_filter_ne (b : List String) :
    ∀ l : List Opcode,
      ((l.map (opcodeAddedLines b)).flatten)
        = (((l.filter (fun c => ¬ c.tag = DTag.equal)).map (opcodeAddedLines b)).flatten)
  | [] => rfl
  | c :: l => by
    rw [List.filter_cons]
    by_cases hc : c.tag = DTag.equal
    · rw [if_neg (by simp [hc])]
      rw [List.map_cons, List.flatten_cons, flatten_added_filter_ne b l]
      have hnil : opcodeAddedLines b c = [] := by
        simp [opcodeAddedLines, hc]
      rw [hnil, List.nil_append]
    · rw [if_pos (by simp [hc])]
      rw [List.map_cons, List.map_cons, List.flatten_cons, List.flatten_cons,
        flatten_added_filter_ne b l]

/-- Equal opcodes add no removed lines, so only the non-equal opcodes
matter. -/
theorem flatten_removed_filter_ne (a : List String) :
    ∀ l : List Opcode,
      ((l.map (opcodeRemovedLines a)).flatten)
        = (((l.filter (fun c => ¬ c.tag = DTag.equal)).map (opcodeRemovedLines a)).flatten)
  | [] => rfl
  | c :: l => by
    rw [List.filter_cons]
    by_cases hc : c.tag = DTag.equal
    · rw [if_neg (by simp [hc])]
      rw [List.map_cons, List.flatten_cons, flatten_removed_filter_ne a l]
      have hnil : opcodeRemovedLines a c = [] := by
        simp [opcodeRemovedLines, hc]
      rw [hnil, List.nil_append]
    · rw [if_pos (by simp [hc])]
      rw [List.map_cons, List.map_cons, List.flatten_cons, List.flatten_cons,
        flatten_removed_filter_ne a l]

/-- Head truncation preserves the opcode tag. -/
theorem truncHeadOp_tag (n : Nat) (c : Opcode) : (truncHeadOp n c).tag = c.tag := by
  simp only [truncHeadOp]
  split
  · rfl
  · rfl

/-- Tail truncation preserves the opcode tag. -/
theorem truncTailOp_tag (n : Nat) (c : Opcode) : (truncTailOp n c).tag = c.tag := by
  simp only [truncTailOp]
  split
  · rfl
  · rfl

/-- Head truncation leaves the non-equal opcodes unchanged. -/
theorem modifyHeadOp_filter_ne (n : Nat) :
    ∀ l : List Opcode,
      (modifyHeadOp (truncHeadOp n) l).filter (fun c => ¬ c.tag = DTag.equal)
        = l.filter (fun c => ¬ c.tag = DTag.equal)
  | [] => rfl
  | c :: l => by
    show (truncHeadOp n c :: l).filter _ = (c :: l).filter _
    rw [List.filter_cons, List.filter_cons]
    by_cases hc : c.tag = DTag.equal
    · rw [if_neg (by simp [truncHeadOp_tag, hc]), if_neg (by simp [hc])]
    · rw [if_pos (by simp [truncHeadOp_tag, hc]), if_pos (by simp [hc])]
      have he : truncHeadOp n c = c := by
        simp [truncHeadOp, hc]
      rw [he]

/-- Tail truncation leaves the non-equal opcodes unchanged. -/
theorem modifyLastOp_filter_ne (n : Nat) :
    ∀ l : List Opcode,
      (modifyLastOp (truncTailOp n) l).filter (fun c => ¬ c.tag = DTag.equal)
        = l.filter (fun c => ¬ c.tag = DTag.equal)
  | [] => rfl
  | [c] => by
    show ([truncTailOp n c]).filter _ = ([c]).filter _
    rw [List.filter_cons, List.filter_cons]
    by_cases hc : c.tag = DTag.equal
    · rw [if_neg (by simp [truncTailOp_tag, hc]), if_neg (by simp [hc])]
    · rw [if_pos (by simp [truncTailOp_tag, hc]), if_pos (by simp [hc])]
      have he : truncTailOp n c = c := by
        simp [truncTailOp, hc]
      rw [he]
  | c :: c2 :: rest => by
    show (c :: modifyLastOp (truncTailOp n) (c2 :: rest)).filter _ = (c :: c2 :: rest).filter _
    rw [List.filter_cons, List.filter_cons, modifyLastOp_filter_ne n (c2 :: rest)]

/-- A single-equal group has no non-equal opcodes. -/
theorem filter_ne_of_singleEqual :
    ∀ g : List Opcode,
      isSingleEqual g = true → g.filter (fun c => ¬ c.tag = DTag.equal) = []
  | [], _ => rfl
  | [c], h => by
    have hc : c.tag = DTag.equal := by
      have h2 : decide (c.tag = DTag.equal) = true := h
      exact of_decide_eq_true h2
    rw [List.filter_cons, if_neg (by simp [hc])]
    rfl
  | c :: c2 :: rest, h => by
    have h2 : false = true := h
    exact absurd h2 (by decide)

/-- The grouping loop emits every non-equal opcode exactly once, in
order. -/
theorem groupSplitAux_filter_ne (n : Nat) :
    ∀ (codes group : List Opcode),
      ((groupSplitAux n group codes).flatten).filter (fun c => ¬ c.tag = DTag.equal)
        = (group ++ codes).filter (fun c => ¬ c.tag = DTag.equal)
  | [], group => by
    show ((if group.isEmpty || isSingleEqual group then [] else [group]).flatten).filter _ = _
    rw [List.append_nil]
    by_cases hg : (group.isEmpty || isSingleEqual group) = true
    · rw [if_pos hg]
      have hgf : group.filter (fun c => ¬ c.tag = DTag.equal) = [] := by
        rcases Bool.or_eq_true_iff.mp hg with h1 | h1
        · rw [List.isEmpty_iff.mp h1]
          rfl
        · exact filter_ne_of_singleEqual group h1
      rw [hgf]
      rfl
    · rw [if_neg hg]
      simp
  | c :: rest, group => by
    simp only [groupSplitAux]
    by_cases hc : c.tag = DTag.equal ∧ c.i2 - c.i1 > n + n
    · rw [if_pos hc, List.flatten_cons, List.filter_append,
        groupSplitAux_filter_ne n rest
          [⟨DTag.equal, max c.i1 (c.i2 - n), c.i2, max c.j1 (c.j2 - n), c.j2⟩],
        List.filter_append, List.filter_append, List.filter_append]
      have htL : ([(⟨DTag.equal, c.i1, min c.i2 (c.i1 + n), c.j1,
          min c.j2 (c.j1 + n)⟩ : Opcode)]).filter (fun c => ¬ c.tag = DTag.equal) = [] := by
        rw [List.filter_cons, if_neg (by simp)]
        rfl
      have htR : ([(⟨DTag.equal, max c.i1 (c.i2 - n), c.i2, max c.j1 (c.j2 - n),
          c.j2⟩ : Opcode)]).filter (fun c => ¬ c.tag = DTag.equal) = [] := by
        rw [List.filter_cons, if_neg (by simp)]
        rfl
      rw [htL, htR, List.append_nil, List.nil_append,
        List.filter_cons, if_neg (by simp [hc.1])]
    · rw [if_neg hc, groupSplitAux_filter_ne n rest (group ++ [c]),
        List.append_assoc, List.singleton_append]

/-- Grouping with context trimming preserves the non-equal opcodes of the
edit script. -/
theorem grouped_filter_ne (a b : List String) (n : Nat) :
    ((getGroupedOpcodes a b n).flatten).filter (fun c => ¬ c.tag = DTag.equal)
      = (getOpcodes a b).filter (fun c => ¬ c.tag = DTag.equal) := by
  simp only [getGroupedOpcodes]
  rw [groupSplitAux_filter_ne, List.nil_append, modifyLastOp_filter_ne, modifyHeadOp_filter_ne]
  by_cases hemp : (getOpcodes a b).isEmpty = true
  · rw [if_pos hemp, List.isEmpty_iff.mp hemp, List.filter_cons, if_neg (by simp)]
  · rw [if_neg hemp]

/-- If no groups are produced, the edit script has no non-equal opcode. -/
theorem groups_empty_all_equal (a b : List String) (n : Nat)
    (h : (getGroupedOpcodes a b n).isEmpty = true) :
    (getOpcodes a b).filter (fun c => ¬ c.tag = DTag.equal) = [] := by
  have h2 := grouped_filter_ne a b n
  rw [List.isEmpty_iff.mp h] at h2
  exact h2.symm

/-- The plus count of the rendered unified diff equals the count of
inserted edit-script lines not starting with two pluses. -/
theorem unifiedDiff_countAdd (a b : List String) :
    ((unifiedDiff a b).filter
      (fun l => pyStartsWith l "+" ∧ ¬ pyStartsWith l "+++")).length
      = ((addedLinesOf a b).filter (fun l => ¬ pyStartsWith l "++")).length := by
  rw [← List.countP_eq_length_filter, ← List.countP_eq_length_filter]
  simp only [unifiedDiff]
  by_cases hg : (getGroupedOpcodes a b 3).isEmpty = true
  · rw [if_pos hg, List.countP_nil]
    simp only [addedLinesOf]
    rw [flatten_added_filter_ne, groups_empty_all_equal a b 3 hg]
    rfl
  · rw [if_neg hg, List.countP_cons, List.countP_cons,
      groups_countAdd a b (getGroupedOpcodes a b 3),
      flatten_added_filter_ne, grouped_filter_ne a b 3, ← flatten_added_filter_ne]
    simp only [addedLinesOf]
    rw [if_neg (by decide), if_neg (by decide)]
    omega

/-- The minus count of the rendered unified diff equals the count of
removed edit-script lines not starting with two minuses. -/
theorem unifiedDiff_countRemove (a b : List String) :
    ((unifiedDiff a b).filter
      (fun l => pyStartsWith l "-" ∧ ¬ pyStartsWith l "---")).length
      = ((removedLinesOf a b).filter (fun l => ¬ pyStartsWith l "--")).length := by
  rw [← List.countP_eq_length_filter, ← List.countP_eq_length_filter]
  simp only [unifiedDiff]
  by_cases hg : (getGroupedOpcodes a b 3).isEmpty = true
  · rw [if_pos hg, List.countP_nil]
    simp only [removedLinesOf]
    rw [flatten_removed_filter_ne, groups_empty_all_equal a b 3 hg]
    rfl
  · rw [if_neg hg, List.countP_cons, List.countP_cons,
      groups_countRemove a b (getGroupedOpcodes a b 3),
      flatten_removed_filter_ne, grouped_filter_ne a b 3, ← flatten_removed_filter_ne]
    simp only [removedLinesOf]
    rw [if_neg (by decide), if_neg (by decide)]
    omega

/-- A string whose first character is a rendering sign differs from the
no-changes message. -/
theorem ne_no_changes_head (s : String)
    (h : s.data.head? = some '+' ∨ s.data.head? = some '-' ∨ s.data.head? = some '~') :
    s ≠ "no changes" := by
  intro he
  rw [he] at h
  rcases h with h | h | h
  · exact absurd h (by decide)
  · exact absurd h (by decide)
  · exact absurd h (by decide)

/-- The rendered summary is the no-changes message exactly when both raw
counts are zero. -/
theorem diffSummarySpec_no_changes (A R : Nat) :
    diffSummarySpec A R = "no changes" ↔ A = 0 ∧ R = 0 := by
  constructor
  · intro h
    by_cases hA : A = 0
    · by_cases hR : R = 0
      · exact ⟨hA, hR⟩
      · exfalso
        subst hA
        have hspec : diffSummarySpec 0 R = "-" ++ Nat.repr (R - min 0 R) := by
          simp only [diffSummarySpec]
          rw [if_neg (show ¬(0 - min 0 R > 0) from by omega),
            if_pos (show R - min 0 R > 0 from by omega),
            if_neg (show ¬(min 0 R > 0) from by omega),
            List.nil_append, List.append_nil,
            if_neg (show ¬((["-" ++ Nat.repr (R - min 0 R)] : List String).isEmpty = true)
              from by simp)]
          rfl
        rw [hspec] at h
        refine ne_no_changes_head _ ?_ h
        right; left
        simp [String.data_append]
    · by_cases hR : R = 0
      · exfalso
        subst hR
        have hspec : diffSummarySpec A 0 = "+" ++ Nat.repr (A - min A 0) := by
          simp only [diffSummarySpec]
          rw [if_pos (show A - min A 0 > 0 from by omega),
            if_neg (show ¬(0 - min A 0 > 0) from by omega),
            if_neg (show ¬(min A 0 > 0) from by omega),
            List.append_nil, List.append_nil,
            if_neg (show ¬((["+" ++ Nat.repr (A - min A 0)] : List String).isEmpty = true)
              from by simp)]
          rfl
        rw [hspec] at h
        refine ne_no_changes_head _ ?_ h
        left
        simp [String.data_append]
      · exfalso
        by_cases hlt : R < A
        · have hspec : diffSummarySpec A R
              = ("+" ++ Nat.repr (A - min A R)) ++ " " ++ ("~" ++ Nat.repr (min A R)) := by
            simp only [diffSummarySpec]
            rw [if_pos (show A - min A R > 0 from by omega),
              if_neg (show ¬(R - min A R > 0) from by omega),
              if_pos (show min A R > 0 from by omega),
              List.append_nil, List.singleton_append,
              if_neg (show ¬(((("+" ++ Nat.repr (A - min A R)) ::
                  ["~" ++ Nat.repr (min A R)]) : List String).isEmpty = true) from by simp)]
            rfl
          rw [hspec] at h
          refine ne_no_changes_head _ ?_ h
          left
          simp [String.data_append]
        · by_cases hgt : A < R
          · have hspec : diffSummarySpec A R
                = ("-" ++ Nat.repr (R - min A R)) ++ " " ++ ("~" ++ Nat.repr (min A R)) := by
              simp only [diffSummarySpec]
              rw [if_neg (show ¬(A - min A R > 0) from by omega),
                if_pos (show R - min A R > 0 from by omega),
                if_pos (show min A R > 0 from by omega),
                List.nil_append, List.singleton_append,
                if_neg (show ¬(((("-" ++ Nat.repr (R - min A R)) ::
                    ["~" ++ Nat.repr (min A R)]) : List String).isEmpty = true) from by simp)]
              rfl
            rw [hspec] at h
            refine ne_no_changes_head _ ?_ h
            right; left
            simp [String.data_append]
          · have hspec : diffSummarySpec A R = "~" ++ Nat.repr (min A R) := by
              simp only [diffSummarySpec]
              rw [if_neg (show ¬(A - min A R > 0) from by omega),
                if_neg (show ¬(R - min A R > 0) from by omega),
                if_pos (show min A R > 0 from by omega),
                List.nil_append, List.nil_append,
                if_neg (show ¬((["~" ++ Nat.repr (min A R)] : List String).isEmpty = true)
                  from by simp)]
              rfl
            rw [hspec] at h
            refine ne_no_changes_head _ ?_ h
            right; right
            simp [String.data_append]
  · rintro ⟨rfl, rfl⟩
    rfl

/-- C2: generate_diff_summary counts the added and removed lines of the
line-level edit script whose content does not itself start with "++"
(respectively "--"), renders min-of-counts as modified with the pure
remainders, and returns "no changes" exactly when both counts are zero.
Because the header skip "+++"/"---" also matches content lines, lines
starting with "++" or "--" are never counted, so "no changes" does not
imply that the texts are equal. -/
theorem generate_diff_summary_counts (existing incoming : String) :
    generateDiffSummary existing incoming
      = diffSummarySpec (countedAdded existing incoming) (countedRemoved existing incoming) ∧
    (generateDiffSummary existing incoming = "no changes" ↔
      countedAdded existing incoming = 0 ∧ countedRemoved existing incoming = 0) := by
  have h1 : generateDiffSummary existing incoming
      = diffSummarySpec (countedAdded existing incoming) (countedRemoved existing incoming) := by
    simp only [generateDiffSummary, diffSummarySpec, countedAdded, countedRemoved]
    rw [unifiedDiff_countAdd, unifiedDiff_countRemove]
  refine ⟨h1, ?_⟩
  rw [h1]
  exact diffSummarySpec_no_changes _ _

/-- C2 counterexample: the texts "" and "++x" differ, yet the single
inserted line is rendered "+++x", matches the "+++" header skip, is not
counted, and the summary reports no changes. -/
theorem generate_diff_summary_counterexample :
    generateDiffSummary "" "++x" = "no changes" ∧ "" ≠ "++x" :=
  ⟨by decide, by decide⟩

end AgentTransfer
